import Mathlib

/-!
Verification of the ionify core against its specification.

This file gives a shallow embedding, in Lean 4, of the parts of the ionify
source that the specification's testable properties talk about:

* the dependency graph manager (`Graph` class: `recordFile`, `removeFile`,
  `getDependents`, `collectDependentsDeep`, `collectAffected`);
* the public-path mapper (`publicPathForFile`, `decodePublicPath`);
* the version canonicalizer (`normalizeTreeshake`, `normalizeScopeHoist`,
  `computeCanonicalVersionInputs`);
* the transform worker pool's crash handlers (`TransformWorkerPool`);
* the HMR coordinator (`HMRServer.queueUpdate`, `HMRServer.consumeUpdate`).

Modelling conventions:

* JavaScript `Map`s are association lists in insertion order (a JS `Map`
  preserves insertion order and re-`set` of an existing key keeps its slot);
  JS `Set` iteration is first-insertion order, modelled by `dedupFirst`.
* `string | null` / optional fields become `Option`.
* File paths are posix strings; `path.resolve` / `path.relative` /
  `path.extname` are modelled segment-wise on `String.data`.
* The optional native (Rust) binding is not part of the source tree: the
  `Graph` class falls back to its portable JS code path when the binding is
  absent (`native = null`), and that JS path is what is embedded here.
* Process inputs (`process.cwd()`, `process.env.IONIFY_CONFIG_HASH`,
  `fs.statSync` mtimes, `Date.now()`) are threaded as explicit parameters.
-/

namespace Ionify

/-! ### Generic helpers: JS `Set` and `Map` semantics -/

/-- Add an element to a JS-`Set`-like list unless already present
(insertion-order preservation). -/
def addUnique (acc : List String) (x : String) : List String :=
  if x ∈ acc then acc else acc ++ [x]

/-- Add many elements to a JS-`Set`-like list in order. -/
def setAddAll (acc : List String) (xs : List String) : List String :=
  xs.foldl addUnique acc

/-- The list with duplicates removed, keeping the first occurrence of each
element: `Array.from(new Set(xs))` in JS. -/
def dedupFirst (xs : List String) : List String :=
  setAddAll [] xs

/-- Lookup in a JS `Map` modelled as an association list. -/
def mapGet {α : Type} (m : List (String × α)) (k : String) : Option α :=
  (m.find? (fun e => e.1 = k)).map (·.2)

/-- JS `Map.set`: replace the value in place if the key exists (keeping its
insertion slot), otherwise append. -/
def mapSet {α : Type} (m : List (String × α)) (k : String) (v : α) :
    List (String × α) :=
  match m with
  | [] => [(k, v)]
  | (k', v') :: rest => if k' = k then (k, v) :: rest else (k', v') :: mapSet rest k v

/-- JS `Map.delete`: remove the entry with the given key. -/
def mapDelete {α : Type} (m : List (String × α)) (k : String) :
    List (String × α) :=
  m.filter (fun e => ¬ e.1 = k)

/-- Keys of a JS `Map`, in insertion order. -/
def mapKeys {α : Type} (m : List (String × α)) : List String :=
  m.map (·.1)

/-! ### Path-segment helpers (posix `path` module)

`splitSlash` splits a character list at every `'/'`; `normAcc` is the
normalization pass of `path.resolve` (drops empty and `"."` segments, pops on
`".."`); `joinSegs` rebuilds an absolute path string. -/

def splitSlash : List Char → List (List Char)
  | [] => [[]]
  | c :: rest =>
    if c = '/' then [] :: splitSlash rest
    else
      match splitSlash rest with
      | s :: ss => (c :: s) :: ss
      | [] => [[c]]

def normAcc : List (List Char) → List (List Char) → List (List Char)
  | acc, [] => acc
  | acc, s :: rest =>
    if s = [] ∨ s = ['.'] then normAcc acc rest
    else if s = ['.', '.'] then normAcc acc.dropLast rest
    else normAcc (acc ++ [s]) rest

/-- Join segments with slashes (no leading slash). -/
def joinSegsAux : List (List Char) → List Char
  | [] => []
  | [s] => s
  | s :: rest => s ++ '/' :: joinSegsAux rest

def joinSegs (segs : List (List Char)) : List Char :=
  '/' :: joinSegsAux segs

/-- `path.resolve` applied to a single absolute (or root-relative) posix
path: normalize the segments and re-join from `/`. -/
def pathResolveAbs (s : String) : String :=
  ⟨joinSegs (normAcc [] (splitSlash s.data))⟩

/-- JS `String.prototype.startsWith`. -/
def jsStartsWith (s pre : String) : Bool :=
  pre.data.isPrefixOf s.data

/-- JS `String.prototype.slice(n)` (drop the first `n` units). -/
def jsDropStr (s : String) (n : Nat) : String :=
  ⟨s.data.drop n⟩

/-- JS `String.prototype.length` (code units; paths here are ASCII). -/
def jsLen (s : String) : Nat :=
  s.data.length

/-- Lower-case a string character-wise (`String.prototype.toLowerCase` on the
ASCII paths the graph sees). -/
def jsToLower (s : String) : String :=
  ⟨s.data.map Char.toLower⟩

/-- JS `String.prototype.endsWith`. -/
def jsEndsWith (s suf : String) : Bool :=
  suf.data.isSuffixOf s.data

/-- Basename of a path: the part after the last `'/'`. -/
def baseNameChars (s : List Char) : List Char :=
  ((splitSlash s).getLast?).getD []

/-- `path.extname`: the suffix of the basename from its last `'.'`,
empty for dot-files and for names without a dot. -/
def extnameChars (b : List Char) : List Char :=
  let r := b.reverse
  if r.contains '.' then
    let afterDot := r.takeWhile (fun c => ¬ c = '.')
    if afterDot.length + 1 = b.length then []
    else '.' :: afterDot.reverse
  else []

def extnameLower (absPath : String) : String :=
  jsToLower ⟨extnameChars (baseNameChars absPath.data)⟩

/-! ### Dependency graph (`Graph` class of the graph manager source file)

The class keeps `nodes : Map<string, GraphNode>`; the embedding carries that
map (the persistence timers, disk snapshot and the optional native binding
are I/O plumbing that never changes the in-memory map's semantics). -/

structure GraphNode where
  id : String
  hash : Option String
  deps : List String
  dynamicDeps : Option (List String)
  kind : Option String
  configHash : Option String
  mtimeMs : Option Int
  deriving Repr, DecidableEq

/-- The in-memory node map of the `Graph` class. -/
abbrev Graph := List (String × GraphNode)

def Graph.getNode (g : Graph) (absPath : String) : Option GraphNode :=
  mapGet g absPath

def Graph.getDeps (g : Graph) (absPath : String) : List String :=
  ((Graph.getNode g absPath).map (·.deps)).getD []

/-- `inferKind`: module kind from the file extension. -/
def inferKind (absPath : String) : String :=
  let ext := extnameLower absPath
  if jsEndsWith (jsToLower absPath) ".module.css" then "css-module"
  else if ext ∈ [".js", ".mjs", ".cjs", ".ts", ".tsx", ".jsx"] then "js"
  else if ext = ".css" then "css"
  else if ext ∈ [".json"] then "json"
  else "asset"

/-- `recordFile`: upsert a node and its deps; returns the `changed` flag and
the updated graph.  `configHash` stands for `process.env.IONIFY_CONFIG_HASH ||
null` and `mtimeMs` for the `fs.statSync` result, both read from the outside
world by the source. -/
def Graph.recordFile (g : Graph) (absPath contentHash : String)
    (depsAbs : List String) (dynamicDeps : Option (List String))
    (kind : Option String) (configHash : Option String)
    (mtimeMs : Option Int) : Bool × Graph :=
  let prev := Graph.getNode g absPath
  let changed : Bool :=
    match prev with
    | none => true
    | some p => decide (¬ p.hash = some contentHash)
  let node : GraphNode :=
    { id := absPath
      hash := some contentHash
      deps := dedupFirst depsAbs
      dynamicDeps := dynamicDeps.map dedupFirst
      kind := some (kind.getD (inferKind absPath))
      configHash := configHash
      mtimeMs := mtimeMs }
  (changed, mapSet g absPath node)

/-- `getDependents`: scan every node and collect the ids whose static
`deps` contain the target (the JS fallback path; note it does not look at
`dynamicDeps`). -/
def Graph.getDependents (g : Graph) (targetAbs : String) : List String :=
  dedupFirst ((g.filter (fun e => targetAbs ∈ e.2.deps)).map (·.1))

/-- Inner loop of the breadth-first walk of `collectDependentsDeep`: push
every dependent not yet in the result set onto the result and the queue. -/
def processDeps (res queue : List String) : List String → List String × List String
  | [] => (res, queue)
  | d :: ds =>
    if d ∈ res then processDeps res queue ds
    else processDeps (res ++ [d]) (queue ++ [d]) ds

/-- The `while (queue.length)` loop of `collectDependentsDeep`, fuelled.
Every id ever pushed is a distinct node key, so `2 * g.length + 2` units of
fuel always reach the empty-queue fixpoint (proved below). -/
def bfsAux (g : Graph) : Nat → List String → List String → List String
  | 0, _, res => res
  | _ + 1, [], res => res
  | fuel + 1, cur :: rest, res =>
    let p := processDeps res rest (Graph.getDependents g cur)
    bfsAux g fuel p.2 p.1

/-- `collectDependentsDeep`: collect dependents recursively, breadth-first. -/
def Graph.collectDependentsDeep (g : Graph) (targetAbs : String) : List String :=
  bfsAux g (2 * g.length + 2) [targetAbs] []

/-- `collectAffected`: the changed files plus all their (deep) dependents.
Without the native binding `usedNative` stays false, so the JS fallback loop
always runs. -/
def Graph.collectAffected (g : Graph) (changed : List String) : List String :=
  let r1 := setAddAll [] changed
  changed.foldl
    (fun acc t => setAddAll (addUnique acc t) (Graph.collectDependentsDeep g t)) r1

/-- `removeFile`: drop the node if present and prune the removed id from the
static `deps` list of every remaining node (the source filters `node.deps`
only). -/
def Graph.removeFile (g : Graph) (absPath : String) : Graph :=
  if (Graph.getNode g absPath).isSome then
    (mapDelete g absPath).map
      (fun e =>
        if absPath ∈ e.2.deps then
          (e.1, { e.2 with deps := e.2.deps.filter (fun d => ¬ d = absPath) })
        else e)
  else g

/-- One mutation of the graph store, as the claims quantify over
record/remove sequences. -/
inductive GraphOp where
  | record (absPath contentHash : String) (deps : List String)
      (dynamicDeps : Option (List String)) (kind : Option String)
      (configHash : Option String) (mtimeMs : Option Int)
  | remove (absPath : String)

def applyOp (g : Graph) : GraphOp → Graph
  | .record a h d dy k c m => (Graph.recordFile g a h d dy k c m).2
  | .remove a => Graph.removeFile g a

/-- Run a sequence of record/remove operations from the empty graph. -/
def applyOps (ops : List GraphOp) : Graph :=
  ops.foldl applyOp []

/-- Follows the spec's words (not the source): `collect_affected` as a single
breadth-first search over the reverse index from the whole seed set — the
deduplicated seeds are pre-visited in the given order and every further id is
appended in multi-source BFS discovery order.  Used to compare the source's
per-seed traversal order against the spec's ordering sentence. -/
def specCollectAffected (g : Graph) (seeds : List String) : List String :=
  bfsAux g (2 * g.length + 2 + seeds.length) (dedupFirst seeds) (dedupFirst seeds)

/-! ### Public-path mapper (`public-path.ts`)

`publicPathForFile` maps an absolute file path to a served URL;
`decodePublicPath` is its inverse with a path-traversal guard.  Out-of-root
paths are base64url-encoded behind a module prefix.  `Buffer.from(s)` (utf8)
and base64url are modelled byte-level below; `process.cwd()` is the `cwd`
parameter of `decodePublicPath` (used by `path.resolve` on relative input). -/

def modulePrefixVal : String := "/__ionify__/modules/"

/-- The base64url alphabet in index order. -/
def b64Alphabet : List Char :=
  "ABCDEFGHIJKLMNOPQRSTUVWXYZabcdefghijklmnopqrstuvwxyz0123456789-_".data

def sextetChar (n : Nat) : Char := b64Alphabet.getD n 'A'

/-- Index of a character in the base64url alphabet, if any. -/
def charSextet (c : Char) : Option Nat :=
  List.indexOf? c b64Alphabet

/-- Base64url encoding of a byte list (no padding, as `base64url` in Node). -/
def b64EncodeBytes : List Nat → List Char
  | [] => []
  | [a] => [sextetChar (a / 4), sextetChar (a % 4 * 16)]
  | [a, b] =>
    [sextetChar (a / 4), sextetChar (a % 4 * 16 + b / 16), sextetChar (b % 16 * 4)]
  | a :: b :: c :: rest =>
    sextetChar (a / 4) :: sextetChar (a % 4 * 16 + b / 16) ::
      sextetChar (b % 16 * 4 + c / 64) :: sextetChar (c % 64) :: b64EncodeBytes rest

def base64urlEncode (bytes : List Nat) : String :=
  ⟨b64EncodeBytes bytes⟩

/-- Base64url decoding of a sextet list: groups of four sextets give three
bytes; a trailing group of three gives two bytes, of two gives one byte, and a
single leftover sextet gives nothing (Node's lenient `Buffer.from` behaviour). -/
def b64DecodeSextets : List Nat → List Nat
  | [] => []
  | [_] => []
  | [a, b] => [a * 4 + b / 16]
  | [a, b, c] => [a * 4 + b / 16, b % 16 * 16 + c / 4]
  | a :: b :: c :: d :: rest =>
    (a * 4 + b / 16) :: (b % 16 * 16 + c / 4) :: (c % 4 * 64 + d) :: b64DecodeSextets rest

/-- `Buffer.from(s, "base64url")`: non-alphabet characters are ignored and
incomplete trailing groups are truncated; this never throws in Node. -/
def base64urlDecode (s : String) : List Nat :=
  b64DecodeSextets (s.data.filterMap charSextet)

/-- UTF-8 encoding of one scalar value. -/
def utf8EncodeChar (c : Char) : List Nat :=
  let n := c.toNat
  if n < 128 then [n]
  else if n < 2048 then [192 + n / 64, 128 + n % 64]
  else if n < 65536 then [224 + n / 4096, 128 + n / 64 % 64, 128 + n % 64]
  else [240 + n / 262144, 128 + n / 4096 % 64, 128 + n / 64 % 64, 128 + n % 64]

/-- `Buffer.from(s)` with the default utf8 encoding. -/
def utf8Bytes (s : String) : List Nat :=
  s.data.flatMap utf8EncodeChar

/-- Strict UTF-8 decoding of a byte list.  `Buffer.prototype.toString("utf8")`
substitutes U+FFFD on malformed input instead; the theorems below only ever
decode byte lists produced by `utf8Bytes`, where the two agree. -/
def utf8DecodeBytes : List Nat → Option (List Char)
  | [] => some []
  | b :: rest =>
    if b < 128 then
      (utf8DecodeBytes rest).map (fun cs => Char.ofNat b :: cs)
    else if 192 ≤ b ∧ b < 224 then
      match rest with
      | b2 :: rest2 =>
        if 128 ≤ b2 ∧ b2 < 192 then
          (utf8DecodeBytes rest2).map
            (fun cs => Char.ofNat ((b - 192) * 64 + (b2 - 128)) :: cs)
        else none
      | [] => none
    else if 224 ≤ b ∧ b < 240 then
      match rest with
      | b2 :: b3 :: rest3 =>
        if (128 ≤ b2 ∧ b2 < 192) ∧ (128 ≤ b3 ∧ b3 < 192) then
          (utf8DecodeBytes rest3).map
            (fun cs => Char.ofNat ((b - 224) * 4096 + (b2 - 128) * 64 + (b3 - 128)) :: cs)
        else none
      | _ => none
    else if 240 ≤ b ∧ b < 248 then
      match rest with
      | b2 :: b3 :: b4 :: rest4 =>
        if (128 ≤ b2 ∧ b2 < 192) ∧ (128 ≤ b3 ∧ b3 < 192) ∧ (128 ≤ b4 ∧ b4 < 192) then
          (utf8DecodeBytes rest4).map
            (fun cs =>
              Char.ofNat
                ((b - 240) * 262144 + (b2 - 128) * 4096 + (b3 - 128) * 64 + (b4 - 128)) :: cs)
        else none
      | _ => none
    else none

def utf8DecodeStr (bytes : List Nat) : Option String :=
  (utf8DecodeBytes bytes).map (fun cs => ⟨cs⟩)

/-- `path.relative(nr, nf).split(path.sep).join("/")` for the contained case
the source calls it in (`nf` equal to `nr` or strictly below it). -/
def relInside (nr nf : String) : String :=
  if nf = nr then "" else jsDropStr nf (jsLen nr + 1)

/-- `publicPathForFile(rootDir, absPath)`. -/
def publicPathForFile (rootDir absPath : String) : String :=
  let nr := pathResolveAbs rootDir
  let nf := pathResolveAbs absPath
  if jsStartsWith nf (nr ++ "/") || nf = nr then
    "/" ++ relInside nr nf
  else
    modulePrefixVal ++ base64urlEncode (utf8Bytes nf)

/-- `path.resolve(s)` on one argument: resolve relative input against the
current working directory `cwd` (itself an absolute normalized path). -/
def pathResolve1 (cwd s : String) : String :=
  if jsStartsWith s "/" then pathResolveAbs s
  else pathResolveAbs (cwd ++ "/" ++ s)

/-- `decodePublicPath(rootDir, urlPath)`; `cwd` threads `process.cwd()`. -/
def decodePublicPath (cwd rootDir urlPath : String) : Option String :=
  if jsStartsWith urlPath modulePrefixVal then
    let encoded := jsDropStr urlPath (jsLen modulePrefixVal)
    match utf8DecodeStr (base64urlDecode encoded) with
    | some decoded => some (pathResolve1 cwd decoded)
    | none => none
  else
    let nr := pathResolveAbs rootDir
    let joined := pathResolveAbs (nr ++ "/." ++ urlPath)
    if ¬ jsStartsWith joined (nr ++ "/") ∧ ¬ joined = nr then none
    else some joined

/-! ### Version canonicalizer (`version.ts`)

The user-facing config fields are loosely typed in the source
(`boolean | string | object`, arrays of strings or plugin objects); the
inductives below enumerate exactly the shapes the normalizers test for. -/

/-- The `treeshake` config value: absent/false/null, `true`, a mode string,
or an object whose `include`/`exclude` may be missing (non-array values are
treated as missing, as the source's `Array.isArray` test does). -/
inductive TreeshakeInput where
  | off
  | enabled
  | mode (s : String)
  | config (mode : Option String) (includeArr excludeArr : Option (List String))
  deriving Repr, DecidableEq

structure TreeshakeNorm where
  mode : String
  includeList : List String
  excludeList : List String
  deriving Repr, DecidableEq

/-- The `scopeHoist` config value. -/
inductive ScopeHoistInput where
  | off
  | enabled
  | config (inlineFunctions constantFolding combineVariables : Option Bool)
  deriving Repr, DecidableEq

structure ScopeHoistNorm where
  inlineFunctions : Bool
  constantFolding : Bool
  combineVariables : Bool
  deriving Repr, DecidableEq

/-- A `plugins[]` entry: a plain name string, or an object whose `name` may or
may not be a string. -/
inductive PluginInput where
  | named (s : String)
  | obj (name : Option String)
  deriving Repr, DecidableEq

/-- The `entry` config value: absent, a single string, or an array. -/
inductive EntryInput where
  | absent
  | one (s : String)
  | many (xs : List String)
  deriving Repr, DecidableEq

structure VersionConfigInput where
  parserMode : Option String
  minifier : Option String
  treeshake : TreeshakeInput
  scopeHoist : ScopeHoistInput
  plugins : Option (List PluginInput)
  entry : EntryInput
  cssOptions : Option (List (String × String))
  assetOptions : Option (List (String × String))
  deriving Repr, DecidableEq

structure CanonicalVersionInputs where
  parserMode : String
  minifier : String
  treeshake : Option TreeshakeNorm
  scopeHoist : Option ScopeHoistNorm
  plugins : List String
  entry : Option (List String)
  cssOptions : Option (List (String × String))
  assetOptions : Option (List (String × String))
  deriving Repr, DecidableEq

/-- JS `Array.prototype.sort()` on strings: ascending code-unit order.  The
comparator is total and antisymmetric on strings, so the sorted permutation is
unique and any stable implementation computes it; we use insertion sort. -/
def charListLe : List Char → List Char → Bool
  | [], _ => true
  | _ :: _, [] => false
  | a :: as, b :: bs =>
    if a.toNat < b.toNat then true
    else if b.toNat < a.toNat then false
    else charListLe as bs

def jsStrLe (a b : String) : Bool := charListLe a.data b.data

def jsSortStrings (xs : List String) : List String :=
  List.insertionSort (fun a b => jsStrLe a b = true) xs

/-- `normalizeTreeshake`. -/
def normalizeTreeshake : TreeshakeInput → Option TreeshakeNorm
  | .off => none
  | .enabled => some { mode := "safe", includeList := [], excludeList := [] }
  | .mode s =>
    some { mode := if s = "aggressive" then "aggressive" else "safe"
           includeList := [], excludeList := [] }
  | .config m inc exc =>
    some { mode := if m = some "aggressive" then "aggressive" else "safe"
           includeList := (inc.map jsSortStrings).getD []
           excludeList := (exc.map jsSortStrings).getD [] }

/-- `normalizeScopeHoist`. -/
def normalizeScopeHoist : ScopeHoistInput → Option ScopeHoistNorm
  | .off => none
  | .enabled =>
    some { inlineFunctions := true, constantFolding := true, combineVariables := true }
  | .config a b c =>
    some { inlineFunctions := a = some true
           constantFolding := b = some true
           combineVariables := c = some true }

/-- The plugin-name extraction of `computeCanonicalVersionInputs`:
`typeof p === "string" ? p : p.name`, then keep only string names. -/
def pluginName : PluginInput → Option String
  | .named s => some s
  | .obj n => n

/-- `computeCanonicalVersionInputs`. -/
def computeCanonicalVersionInputs (config : VersionConfigInput) :
    CanonicalVersionInputs :=
  { parserMode := config.parserMode.getD "hybrid"
    minifier := config.minifier.getD "auto"
    treeshake := normalizeTreeshake config.treeshake
    scopeHoist := normalizeScopeHoist config.scopeHoist
    plugins :=
      match config.plugins with
      | some ps => jsSortStrings (ps.filterMap pluginName)
      | none => []
    entry :=
      match config.entry with
      | .absent => none
      | .one s => some [s]
      | .many xs => some (jsSortStrings xs)
    cssOptions :=
      match config.cssOptions with
      | some m => if 0 < m.length then some m else none
      | none => none
    assetOptions :=
      match config.assetOptions with
      | some m => if 0 < m.length then some m else none
      | none => none }

/-! ### Transform worker pool (`TransformWorkerPool`)

The pool's scheduling state is embedded as a record; the `worker.on(...)`
closures of `spawnWorker` become the transition functions below.  Delivering a
result to a stored callback is modelled by appending it to a `delivered` log
(the source resolves the promise registered under the job id). -/

structure TransformJob where
  id : String
  code : String
  filePath : String
  ext : String
  deriving Repr, DecidableEq

structure TransformJobResult where
  id : String
  filePath : String
  code : String
  map : Option String
  type : String
  error : Option String
  deriving Repr, DecidableEq

structure QueueItem where
  job : TransformJob
  size : Nat
  deriving Repr, DecidableEq

structure PoolState where
  workers : List Nat
  queue : List QueueItem
  active : List (Nat × QueueItem)
  callbacks : List String
  delivered : List TransformJobResult
  pendingBytes : Nat
  closed : Bool
  deriving Repr, DecidableEq

/-- The tail of `spawnWorker`: push the fresh worker's thread id. -/
def spawnWorker (s : PoolState) (freshId : Nat) : PoolState :=
  { s with workers := s.workers ++ [freshId] }

/-- Key lookup in the `active` map (a JS `Map<threadId, QueueItem>`). -/
def activeGet (s : PoolState) (w : Nat) : Option QueueItem :=
  ((s.active.find? (fun e => e.1 = w)).map (·.2))

def activeDelete (s : PoolState) (w : Nat) : List (Nat × QueueItem) :=
  s.active.filter (fun e => ¬ e.1 = w)

/-- The `worker.on("error", ...)` handler: re-queue the in-flight item at the
head of the queue and spawn a replacement worker (always). -/
def onWorkerError (s : PoolState) (w : Nat) (freshId : Nat) : PoolState :=
  let s1 :=
    match activeGet s w with
    | some item =>
      { s with active := activeDelete s w, queue := item :: s.queue }
    | none => s
  spawnWorker s1 freshId

/-- The `worker.on("exit", code)` handler: re-queue the in-flight item at the
head; respawn only on an abnormal exit of a pool that is not closed. -/
def onWorkerExit (s : PoolState) (w : Nat) (code : Int) (freshId : Nat) : PoolState :=
  let s1 :=
    match activeGet s w with
    | some item =>
      { s with active := activeDelete s w, queue := item :: s.queue }
    | none => s
  if ¬ s1.closed ∧ ¬ code = 0 then spawnWorker s1 freshId else s1

/-- The `private dequeue(worker)` method: hand the queue head to the worker. -/
def dequeue (s : PoolState) (w : Nat) : PoolState :=
  match s.queue with
  | [] => s
  | item :: rest =>
    { s with queue := rest, active := s.active ++ [(w, item)] }

/-- The `worker.on("message", ...)` handler: retire the in-flight item,
deliver the result to the callback registered under its job id, and pull the
next queued job onto this worker. -/
def onWorkerMessage (s : PoolState) (w : Nat) (msg : TransformJobResult) : PoolState :=
  let s1 :=
    match activeGet s w with
    | some item =>
      { s with active := activeDelete s w, pendingBytes := s.pendingBytes - item.size }
    | none => s
  let s2 :=
    if msg.id ∈ s1.callbacks then
      { s1 with delivered := s1.delivered ++ [msg]
                callbacks := s1.callbacks.filter (fun i => ¬ i = msg.id) }
    else s1
  dequeue s2 w

/-! ### HMR coordinator (`HMRServer`)

`pending` is the `Map<string, PendingUpdate>`; `sent` logs every `update`
event handed to `broadcastEvent` (the SSE fan-out to subscribers); `Date.now()`
is the `now` parameter of `queueUpdate`. -/

structure PendingHMRModule where
  absPath : String
  url : String
  hash : Option String
  reason : String
  deriving Repr, DecidableEq

structure HMRModuleSummary where
  url : String
  hash : Option String
  reason : String
  deriving Repr, DecidableEq

/-- The broadcast `update` summary (its constant discriminator field
`type: "update"` is implicit in the Lean type). -/
structure HMRUpdateSummary where
  id : String
  timestamp : Nat
  modules : List HMRModuleSummary
  deriving Repr, DecidableEq

structure PendingUpdate where
  summary : HMRUpdateSummary
  modules : List PendingHMRModule
  createdAt : Nat
  deriving Repr, DecidableEq

structure HMRState where
  pending : List (String × PendingUpdate)
  nextId : Nat
  sent : List (String × HMRUpdateSummary)
  deriving Repr, DecidableEq

/-- The update id template literal of `queueUpdate`. -/
def mkUpdateId (timestamp nextId : Nat) : String :=
  Nat.repr timestamp ++ "-" ++ Nat.repr nextId

/-- Drop a `PendingHMRModule` to its broadcast summary (url, hash, reason
only — no payload fields). -/
def summarizeModule (m : PendingHMRModule) : HMRModuleSummary :=
  { url := m.url, hash := m.hash, reason := m.reason }

/-- `queueUpdate(modules)`: nothing happens on an empty list; otherwise store
one pending entry under a fresh id and broadcast exactly one `update` summary. -/
def queueUpdate (now : Nat) (modules : List PendingHMRModule) (s : HMRState) :
    Option HMRUpdateSummary × HMRState :=
  if modules = [] then (none, s)
  else
    let id := mkUpdateId now s.nextId
    let summary : HMRUpdateSummary :=
      { id := id, timestamp := now, modules := modules.map summarizeModule }
    (some summary,
      { pending := mapSet s.pending id
          { summary := summary, modules := modules, createdAt := now }
        nextId := s.nextId + 1
        sent := s.sent ++ [("update", summary)] })

/-- `consumeUpdate(id)`: return and delete the stored entry, if any. -/
def consumeUpdate (id : String) (s : HMRState) : Option PendingUpdate × HMRState :=
  match mapGet s.pending id with
  | some p => (some p, { s with pending := mapDelete s.pending id })
  | none => (none, s)

/-- One coordinator operation, for quantifying over histories. -/
inductive HMROp where
  | queue (now : Nat) (modules : List PendingHMRModule)
  | consume (id : String)

def applyHMROp (s : HMRState) : HMROp → HMRState
  | .queue now mods => (queueUpdate now mods s).2
  | .consume id => (consumeUpdate id s).2

def runHMROps (s : HMRState) (ops : List HMROp) : HMRState :=
  ops.foldl applyHMROp s

/-! ### Helper lemmas: JS Set and Map semantics -/

theorem mem_addUnique (acc : List String) (x y : String) :
    y ∈ addUnique acc x ↔ y ∈ acc ∨ y = x := by
  unfold addUnique
  split <;> rename_i h
  · constructor
    · exact Or.inl
    · intro hy
      rcases hy with hy | hy
      · exact hy
      · exact hy ▸ h
  · simp

theorem addUnique_prefix (acc : List String) (x : String) :
    ∃ t, addUnique acc x = acc ++ t := by
  unfold addUnique
  split
  · exact ⟨[], by simp⟩
  · exact ⟨[x], rfl⟩

theorem setAddAll_nil (acc : List String) : setAddAll acc [] = acc := rfl

theorem setAddAll_cons (acc : List String) (x : String) (rest : List String) :
    setAddAll acc (x :: rest) = setAddAll (addUnique acc x) rest := rfl

theorem mem_setAddAll (acc xs : List String) (y : String) :
    y ∈ setAddAll acc xs ↔ y ∈ acc ∨ y ∈ xs := by
  induction xs generalizing acc with
  | nil => simp [setAddAll]
  | cons x rest ih =>
    rw [setAddAll_cons, ih, mem_addUnique]
    simp only [List.mem_cons]
    tauto

theorem setAddAll_prefix (acc xs : List String) :
    ∃ t, setAddAll acc xs = acc ++ t := by
  induction xs generalizing acc with
  | nil => exact ⟨[], by simp [setAddAll]⟩
  | cons x rest ih =>
    obtain ⟨t1, h1⟩ := addUnique_prefix acc x
    obtain ⟨t2, h2⟩ := ih (addUnique acc x)
    refine ⟨t1 ++ t2, ?_⟩
    rw [setAddAll_cons, h2, h1, List.append_assoc]

theorem mem_dedupFirst (xs : List String) (y : String) :
    y ∈ dedupFirst xs ↔ y ∈ xs := by
  simp [dedupFirst, mem_setAddAll]

theorem mapGet_nil {α : Type} (k : String) : mapGet ([] : List (String × α)) k = none := rfl

theorem mapGet_cons {α : Type} (e : String × α) (m : List (String × α)) (k : String) :
    mapGet (e :: m) k = if e.1 = k then some e.2 else mapGet m k := by
  simp only [mapGet, List.find?]
  split <;> simp_all

theorem mapGet_mapSet_self {α : Type} (m : List (String × α)) (k : String) (v : α) :
    mapGet (mapSet m k v) k = some v := by
  induction m with
  | nil => simp [mapSet, mapGet_cons]
  | cons e rest ih =>
    simp only [mapSet]
    split
    · simp [mapGet_cons]
    · rw [mapGet_cons]
      simp_all

theorem mapGet_mapSet_ne {α : Type} (m : List (String × α)) (k k' : String) (v : α)
    (h : ¬ k' = k) : mapGet (mapSet m k v) k' = mapGet m k' := by
  have hkk : ¬ k = k' := fun hc => h hc.symm
  induction m with
  | nil => simp [mapSet, mapGet_cons, mapGet_nil, hkk]
  | cons e rest ih =>
    simp only [mapSet]
    split <;> rename_i he
    · rw [mapGet_cons, mapGet_cons, he]
      simp [hkk]
    · rw [mapGet_cons, mapGet_cons, ih]

theorem mapDelete_nil {α : Type} (k : String) :
    mapDelete ([] : List (String × α)) k = [] := rfl

theorem mapDelete_cons {α : Type} (e : String × α) (m : List (String × α)) (k : String) :
    mapDelete (e :: m) k = if e.1 = k then mapDelete m k else e :: mapDelete m k := by
  simp only [mapDelete, List.filter]
  split <;> rename_i hc <;> split <;> rename_i hc2 <;> simp_all

theorem mapGet_mapDelete_self {α : Type} (m : List (String × α)) (k : String) :
    mapGet (mapDelete m k) k = none := by
  induction m with
  | nil => rfl
  | cons e rest ih =>
    rw [mapDelete_cons]
    split <;> rename_i hc
    · exact ih
    · rw [mapGet_cons]
      simp [hc, ih]

theorem mapGet_mapDelete_ne {α : Type} (m : List (String × α)) (k k' : String)
    (h : ¬ k' = k) : mapGet (mapDelete m k) k' = mapGet m k' := by
  induction m with
  | nil => rfl
  | cons e rest ih =>
    rw [mapDelete_cons]
    split <;> rename_i hc
    · rw [mapGet_cons, ih]
      have : ¬ e.1 = k' := by rw [hc]; exact fun hc2 => h hc2.symm
      simp [this]
    · rw [mapGet_cons, mapGet_cons, ih]

/-- Well-formedness of a JS-map model: keys are distinct. -/
def WFMap {α : Type} (m : List (String × α)) : Prop := (mapKeys m).Nodup

theorem WFMap_nil {α : Type} : WFMap ([] : List (String × α)) := List.nodup_nil

theorem mapKeys_mapSet {α : Type} (m : List (String × α)) (k : String) (v : α) :
    mapKeys (mapSet m k v) = if k ∈ mapKeys m then mapKeys m else mapKeys m ++ [k] := by
  induction m with
  | nil => simp [mapSet, mapKeys]
  | cons e rest ih =>
    simp only [mapSet]
    split <;> rename_i he
    · simp [mapKeys, he]
    · simp only [mapKeys, List.map_cons, List.mem_cons] at ih ⊢
      rw [ih]
      by_cases hk : k ∈ List.map Prod.fst rest
      · simp [hk, Ne.symm he]
      · simp [hk, Ne.symm he]

theorem WFMap_mapSet {α : Type} (m : List (String × α)) (k : String) (v : α)
    (h : WFMap m) : WFMap (mapSet m k v) := by
  unfold WFMap
  rw [mapKeys_mapSet]
  split <;> rename_i hk
  · exact h
  · rw [List.nodup_append]
    exact ⟨h, List.nodup_singleton _, by simp [hk]⟩

theorem mapKeys_cons {α : Type} (e : String × α) (m : List (String × α)) :
    mapKeys (e :: m) = e.1 :: mapKeys m := rfl

theorem mapKeys_mapDelete {α : Type} (m : List (String × α)) (k : String) :
    mapKeys (mapDelete m k) = (mapKeys m).filter (fun x => ¬ x = k) := by
  induction m with
  | nil => rfl
  | cons e rest ih =>
    rw [mapDelete_cons]
    by_cases hc : e.1 = k
    · rw [if_pos hc, ih, mapKeys_cons, List.filter_cons]
      simp [hc]
    · rw [if_neg hc, mapKeys_cons, mapKeys_cons, List.filter_cons, ih]
      simp [hc]

theorem WFMap_mapDelete {α : Type} (m : List (String × α)) (k : String)
    (h : WFMap m) : WFMap (mapDelete m k) := by
  unfold WFMap at h ⊢
  rw [mapKeys_mapDelete]
  exact h.filter _

theorem mapGet_eq_some_iff {α : Type} (m : List (String × α)) (k : String) (v : α)
    (h : WFMap m) : mapGet m k = some v ↔ (k, v) ∈ m := by
  induction m with
  | nil => simp [mapGet_nil]
  | cons e rest ih =>
    rw [mapGet_cons]
    have hwf : WFMap rest := by
      unfold WFMap mapKeys at h ⊢
      simp only [List.map_cons] at h
      exact h.of_cons
    split <;> rename_i he
    · subst he
      simp only [List.mem_cons]
      constructor
      · intro hv
        left
        obtain ⟨k1, v1⟩ := e
        simp_all
      · intro hv
        rcases hv with hv | hv
        · obtain ⟨k1, v1⟩ := e
          simp_all
        · exfalso
          unfold WFMap mapKeys at h
          simp only [List.map_cons] at h
          exact h.not_mem (by simpa using List.mem_map_of_mem Prod.fst hv)
    · rw [ih hwf]
      simp only [List.mem_cons]
      constructor
      · exact Or.inr
      · intro hv
        rcases hv with hv | hv
        · exfalso
          obtain ⟨k1, v1⟩ := e
          simp_all
        · exact hv

end Ionify
namespace Ionify

/-! ### Graph store lemmas -/

theorem mem_getDependents (g : Graph) (x y : String) :
    y ∈ Graph.getDependents g x ↔ ∃ e ∈ g, e.1 = y ∧ x ∈ e.2.deps := by
  unfold Graph.getDependents
  rw [mem_dedupFirst]
  simp only [List.mem_map, List.mem_filter, decide_eq_true_eq]
  constructor
  · rintro ⟨e, ⟨he, hd⟩, hy⟩
    exact ⟨e, he, hy, hd⟩
  · rintro ⟨e, he, hy, hd⟩
    exact ⟨e, ⟨he, hd⟩, hy⟩

theorem mem_getDependents_wf (g : Graph) (x y : String) (h : WFMap g) :
    y ∈ Graph.getDependents g x ↔
      ∃ nd, Graph.getNode g y = some nd ∧ x ∈ nd.deps := by
  rw [mem_getDependents]
  constructor
  · rintro ⟨e, he, hy, hd⟩
    refine ⟨e.2, ?_, hd⟩
    rw [Graph.getNode, mapGet_eq_some_iff _ _ _ h, ← hy]
    exact he
  · rintro ⟨nd, hn, hd⟩
    rw [Graph.getNode, mapGet_eq_some_iff _ _ _ h] at hn
    exact ⟨(y, nd), hn, rfl, hd⟩

/-- Every id returned by `getDependents` is a key of the node map. -/
theorem getDependents_subset_keys (g : Graph) (x y : String)
    (h : y ∈ Graph.getDependents g x) : y ∈ mapKeys g := by
  rw [mem_getDependents] at h
  obtain ⟨e, he, hy, _⟩ := h
  exact hy ▸ List.mem_map_of_mem Prod.fst he

theorem WFMap_recordFile (g : Graph) (a h : String) (d : List String)
    (dy : Option (List String)) (k cfg : Option String) (mt : Option Int)
    (hw : WFMap g) : WFMap (Graph.recordFile g a h d dy k cfg mt).2 :=
  WFMap_mapSet _ _ _ hw

/-- The node transformation applied by `removeFile` to every surviving node. -/
def pruneNode (a : String) (nd : GraphNode) : GraphNode :=
  if a ∈ nd.deps then { nd with deps := nd.deps.filter (fun d => ¬ d = a) } else nd

theorem removeFile_eq (g : Graph) (a : String) :
    Graph.removeFile g a =
      if (Graph.getNode g a).isSome then
        (mapDelete g a).map (fun e => (e.1, pruneNode a e.2))
      else g := by
  unfold Graph.removeFile
  split <;> rename_i hc
  · apply List.map_congr_left
    intro e _
    unfold pruneNode
    split <;> rename_i hd
    · rfl
    · rfl
  · rfl

theorem pruneNode_deps (a : String) (nd : GraphNode) :
    (pruneNode a nd).deps = nd.deps.filter (fun d => ¬ d = a) := by
  unfold pruneNode
  split <;> rename_i hd
  · rfl
  · rw [List.filter_eq_self.mpr]
    intro d hdm
    simp only [decide_eq_true_eq]
    intro he
    exact hd (he ▸ hdm)

theorem pruneNode_dynamicDeps (a : String) (nd : GraphNode) :
    (pruneNode a nd).dynamicDeps = nd.dynamicDeps := by
  unfold pruneNode
  split <;> rfl

theorem mapGet_mapValue {α β : Type} (m : List (String × α)) (f : String × α → β)
    (k : String) :
    mapGet (m.map (fun e => (e.1, f e))) k = (m.find? (fun e => e.1 = k)).map f := by
  induction m with
  | nil => rfl
  | cons e rest ih =>
    simp only [List.map_cons]
    rw [mapGet_cons]
    by_cases hc : e.1 = k
    · simp [List.find?, hc]
    · simp [List.find?, hc, ih]

theorem getNode_removeFile (g : Graph) (a n : String)
    (hex : (Graph.getNode g a).isSome) :
    Graph.getNode (Graph.removeFile g a) n =
      (Graph.getNode (mapDelete g a) n).map (pruneNode a) := by
  rw [removeFile_eq, if_pos hex]
  show mapGet _ n = _
  rw [mapGet_mapValue (mapDelete g a) (fun e => pruneNode a e.2) n]
  unfold Graph.getNode mapGet
  cases hfind : (mapDelete g a).find? (fun e => e.1 = n) <;> simp

theorem mapKeys_removeFile (g : Graph) (a : String) :
    mapKeys (Graph.removeFile g a) =
      if (Graph.getNode g a).isSome then mapKeys (mapDelete g a) else mapKeys g := by
  rw [removeFile_eq]
  split <;> rename_i hc
  · simp [mapKeys, List.map_map, Function.comp]
  · rfl

theorem WFMap_removeFile (g : Graph) (a : String) (hw : WFMap g) :
    WFMap (Graph.removeFile g a) := by
  unfold WFMap
  rw [mapKeys_removeFile]
  split
  · exact WFMap_mapDelete _ _ hw
  · exact hw

theorem WFMap_applyOp (g : Graph) (op : GraphOp) (hw : WFMap g) :
    WFMap (applyOp g op) := by
  cases op with
  | record a h d dy k cfg mt => exact WFMap_recordFile g a h d dy k cfg mt hw
  | remove a => exact WFMap_removeFile g a hw

theorem WFMap_applyOps (ops : List GraphOp) : WFMap (applyOps ops) := by
  have main : ∀ (l : List GraphOp) (g : Graph), WFMap g → WFMap (l.foldl applyOp g) := by
    intro l
    induction l with
    | nil => exact fun g hg => hg
    | cons op rest ih => exact fun g hg => ih _ (WFMap_applyOp g op hg)
  exact main ops [] WFMap_nil

end Ionify
namespace Ionify

/-! ### Claims C1, C3, C4 -/

/-- C1 (counterexample): after recording a node `A` whose dynamic deps contain
`B`, the reverse lookup `getDependents "B"` is empty even though `B` is a
member of `A`'s dynamic dep set — the scan only consults static `deps`, so
`dependents(x)` is not the set of nodes with `x` in `deps ∪ dynamicDeps`. -/
theorem C1_counterexample :
    Graph.getDependents
        (applyOps [.record "A" "h" [] (some ["B"]) none none none]) "B" = [] ∧
      ((Graph.getNode (applyOps [.record "A" "h" [] (some ["B"]) none none none]) "A").map
          (fun nd => nd.dynamicDeps.getD [])).getD [] = ["B"] := by
  decide

/-- C1 (amended): after any sequence of record/remove operations from the
empty graph, `getDependents x` returns exactly the ids of nodes whose static
dep set contains `x` (dynamic deps are not reflected in the reverse lookup). -/
theorem C1_reverse_index_static_only (ops : List GraphOp) (x n : String) :
    n ∈ Graph.getDependents (applyOps ops) x ↔
      ∃ nd, Graph.getNode (applyOps ops) n = some nd ∧ x ∈ nd.deps :=
  mem_getDependents_wf (applyOps ops) x n (WFMap_applyOps ops)

/-- C3 (counterexample): recording `A` a second time with the same hash but a
different dep list returns `changed = false`, although the stored dep set
`["B"]` differs from the new one `["C"]` — so `changed` is not true whenever
the dep set differs. -/
theorem C3_counterexample :
    ((Graph.recordFile ((Graph.recordFile [] "A" "h" ["B"] none none none none).2)
        "A" "h" ["C"] none none none none).1 = false) ∧
      Graph.getDeps ((Graph.recordFile [] "A" "h" ["B"] none none none none).2) "A" = ["B"] := by
  decide

/-- C3 (amended): `recordFile` returns `changed = true` iff the node is new or
the stored content hash differs from the given one (the dep sets are not
compared); in particular a second record with identical arguments returns
`changed = false`. -/
theorem C3_record_changed_iff (g : Graph) (a h : String) (d : List String)
    (dy : Option (List String)) (k cfg : Option String) (mt : Option Int) :
    ((Graph.recordFile g a h d dy k cfg mt).1 = true ↔
        Graph.getNode g a = none ∨
          ∃ p, Graph.getNode g a = some p ∧ ¬ p.hash = some h) ∧
      (Graph.recordFile (Graph.recordFile g a h d dy k cfg mt).2
          a h d dy k cfg mt).1 = false := by
  constructor
  · show (match Graph.getNode g a with
      | none => true
      | some p => decide (¬ p.hash = some h)) = true ↔ _
    cases hn : Graph.getNode g a with
    | none => simp
    | some p =>
      simp only [decide_eq_true_eq]
      constructor
      · intro hp
        exact Or.inr ⟨p, rfl, hp⟩
      · rintro (hc | ⟨p', hp', hne⟩)
        · cases hc
        · cases hp'
          exact hne
  · show (match Graph.getNode (Graph.recordFile g a h d dy k cfg mt).2 a with
      | none => true
      | some p => decide (¬ p.hash = some h)) = false
    have : Graph.getNode (Graph.recordFile g a h d dy k cfg mt).2 a =
        some { id := a, hash := some h, deps := dedupFirst d,
               dynamicDeps := dy.map dedupFirst,
               kind := some (k.getD (inferKind a)), configHash := cfg,
               mtimeMs := mt } :=
      mapGet_mapSet_self g a _
    rw [this]
    simp

/-- C4 (counterexample): record `A` with dynamic dep `B` and node `B`, then
`removeFile "B"`: the node is gone, but `A`'s dynamic dep set still contains
the removed id — `removeFile` does not prune dynamic dep sets. -/
theorem C4_counterexample :
    ((Graph.getNode
          (Graph.removeFile
            (applyOps [.record "A" "hA" [] (some ["B"]) none none none,
                       .record "B" "hB" [] none none none none]) "B") "A").map
        (fun nd => nd.dynamicDeps.getD [])).getD [] = ["B"] ∧
      Graph.getNode
        (Graph.removeFile
          (applyOps [.record "A" "hA" [] (some ["B"]) none none none,
                     .record "B" "hB" [] none none none none]) "B") "B" = none := by
  decide

/-- C4 (amended): when the removed id has a node, `removeFile` deletes it and
prunes the id from every surviving node's static dep list, while each node's
dynamic dep set is left untouched. -/
theorem C4_remove_prunes_static_deps (g : Graph) (a : String)
    (hex : (Graph.getNode g a).isSome) :
    Graph.getNode (Graph.removeFile g a) a = none ∧
      (∀ n nd', Graph.getNode (Graph.removeFile g a) n = some nd' →
        ∃ nd, Graph.getNode g n = some nd ∧ ¬ n = a ∧
          nd'.deps = nd.deps.filter (fun d => ¬ d = a) ∧
          nd'.dynamicDeps = nd.dynamicDeps ∧ a ∉ nd'.deps) ∧
      (Graph.getDeps
          (Graph.removeFile
            (applyOps [.record "A" "hA" ["B"] none none none none,
                       .record "B" "hB" ["C"] none none none none,
                       .record "C" "hC" [] none none none none]) "B") "A" = [] ∧
        Graph.getDependents
          (Graph.removeFile
            (applyOps [.record "A" "hA" ["B"] none none none none,
                       .record "B" "hB" ["C"] none none none none,
                       .record "C" "hC" [] none none none none]) "B") "C" = []) := by
  refine ⟨?_, ?_, by decide⟩
  · rw [getNode_removeFile g a a hex]
    show (mapGet (mapDelete g a) a).map _ = none
    rw [mapGet_mapDelete_self]
    rfl
  · intro n nd' hn
    rw [getNode_removeFile g a n hex] at hn
    cases hdel : Graph.getNode (mapDelete g a) n with
    | none => rw [hdel] at hn; cases hn
    | some nd =>
      rw [hdel] at hn
      have hna : ¬ n = a := by
        intro he
        subst he
        have : Graph.getNode (mapDelete g n) n = none := mapGet_mapDelete_self g n
        rw [this] at hdel
        cases hdel
      have hg : Graph.getNode g n = some nd := by
        have := mapGet_mapDelete_ne g a n hna
        rw [Graph.getNode, ← this]
        exact hdel
      refine ⟨nd, hg, hna, ?_, ?_, ?_⟩
      · have : nd' = pruneNode a nd := by
          simpa using hn.symm
        rw [this, pruneNode_deps]
      · have : nd' = pruneNode a nd := by simpa using hn.symm
        rw [this, pruneNode_dynamicDeps]
      · have : nd' = pruneNode a nd := by simpa using hn.symm
        rw [this, pruneNode_deps]
        intro hmem
        have := List.of_mem_filter hmem
        simp at this

/-- Witness for the amended C4 theorem: the spec's concrete scenario
`A → B → C`, `remove(B)`. -/
theorem C4_remove_prunes_static_deps_witness :
    Graph.getNode
        (Graph.removeFile
          (applyOps [.record "A" "hA" ["B"] none none none none,
                     .record "B" "hB" ["C"] none none none none,
                     .record "C" "hC" [] none none none none]) "B") "B" = none :=
  (C4_remove_prunes_static_deps
    (applyOps [.record "A" "hA" ["B"] none none none none,
               .record "B" "hB" ["C"] none none none none,
               .record "C" "hC" [] none none none none]) "B"
    (by decide)).1

end Ionify
namespace Ionify

/-! ### Claim C2: collectAffected -/

/-- One reverse edge: `y` is a direct dependent of `x`. -/
def depStep (g : Graph) (x y : String) : Prop :=
  y ∈ Graph.getDependents g x

/-- The ids `processDeps` appends (dependents not yet visited, in order). -/
def newly (res : List String) : List String → List String
  | [] => []
  | d :: ds => if d ∈ res then newly res ds else d :: newly (res ++ [d]) ds

theorem processDeps_eq (res queue ds : List String) :
    processDeps res queue ds = (res ++ newly res ds, queue ++ newly res ds) := by
  induction ds generalizing res queue with
  | nil => simp [processDeps, newly]
  | cons d rest ih =>
    unfold processDeps newly
    split <;> rename_i hd
    · exact ih res queue
    · rw [ih]
      simp

theorem mem_newly (res ds : List String) (y : String) (h : y ∈ newly res ds) :
    y ∈ ds ∧ ¬ y ∈ res := by
  induction ds generalizing res with
  | nil => cases h
  | cons d rest ih =>
    unfold newly at h
    split at h <;> rename_i hd
    · have := ih res h
      exact ⟨List.mem_cons_of_mem d this.1, this.2⟩
    · rcases List.mem_cons.mp h with he | hm
      · exact ⟨he ▸ List.mem_cons_self d rest, he ▸ hd⟩
      · have := ih (res ++ [d]) hm
        refine ⟨List.mem_cons_of_mem d this.1, fun hc => this.2 ?_⟩
        exact List.mem_append_left [d] hc

theorem newly_nodup (res ds : List String) : (newly res ds).Nodup := by
  induction ds generalizing res with
  | nil => exact List.nodup_nil
  | cons d rest ih =>
    unfold newly
    split <;> rename_i hd
    · exact ih res
    · refine List.nodup_cons.mpr ⟨fun hc => ?_, ih (res ++ [d])⟩
      exact (mem_newly _ _ _ hc).2 (List.mem_append_right res (List.mem_singleton.mpr rfl))

theorem newly_complete (res ds : List String) (y : String) (h : y ∈ ds) :
    y ∈ res ++ newly res ds := by
  induction ds generalizing res with
  | nil => cases h
  | cons d rest ih =>
    unfold newly
    split <;> rename_i hd
    · rcases List.mem_cons.mp h with he | hm
      · exact List.mem_append_left _ (he ▸ hd)
      · exact ih res hm
    · rcases List.mem_cons.mp h with he | hm
      · subst he
        exact List.mem_append_right _ (List.mem_cons_self _ _)
      · have := ih (res ++ [d]) hm
        rw [List.append_assoc] at this
        rcases List.mem_append.mp this with hl | hr
        · exact List.mem_append_left _ hl
        · refine List.mem_append_right _ ?_
          rcases List.mem_append.mp hr with h1 | h2
          · exact List.mem_cons.mpr (Or.inl (List.mem_singleton.mp h1))
          · exact List.mem_cons_of_mem d h2

/-- The invariant of the breadth-first worklist of `collectDependentsDeep`. -/
structure BfsInv (g : Graph) (t : String) (queue res : List String) : Prop where
  sound : ∀ y ∈ res, Relation.TransGen (depStep g) t y
  queueOk : ∀ q ∈ queue, q = t ∨ q ∈ res
  frontier : ∀ x, (x = t ∨ x ∈ res) → x ∈ queue ∨ ∀ y, depStep g x y → y ∈ res

/-- Termination measure of the worklist: twice the unvisited node keys plus
the queue length. -/
def bfsMeasure (g : Graph) (res queue : List String) : Nat :=
  2 * ((mapKeys g).dedup.filter (fun k => ¬ k ∈ res)).length + queue.length

theorem length_filter_partition (l res nw : List String)
    (hdis : ∀ y ∈ nw, ¬ y ∈ res) :
    (l.filter (fun k => ¬ k ∈ res)).length =
      (l.filter (fun k => ¬ (k ∈ res ∨ k ∈ nw))).length +
        (l.filter (fun k => k ∈ nw)).length := by
  induction l with
  | nil => rfl
  | cons x rest ih =>
    rw [List.filter_cons, List.filter_cons, List.filter_cons]
    by_cases hxn : x ∈ nw
    · have hxr : ¬ x ∈ res := hdis x hxn
      rw [if_pos (by simp [hxr] : decide (¬ x ∈ res) = true),
        if_neg (by simp [hxn] : ¬ decide (¬ (x ∈ res ∨ x ∈ nw)) = true),
        if_pos (by simp [hxn] : decide (x ∈ nw) = true)]
      rw [List.length_cons, List.length_cons, ih]
      omega
    · by_cases hxr : x ∈ res
      · rw [if_neg (by simp [hxr] : ¬ decide (¬ x ∈ res) = true),
          if_neg (by simp [hxr] : ¬ decide (¬ (x ∈ res ∨ x ∈ nw)) = true),
          if_neg (by simp [hxn] : ¬ decide (x ∈ nw) = true)]
        exact ih
      · rw [if_pos (by simp [hxr] : decide (¬ x ∈ res) = true),
          if_pos (by simp [hxr, hxn] : decide (¬ (x ∈ res ∨ x ∈ nw)) = true),
          if_neg (by simp [hxn] : ¬ decide (x ∈ nw) = true)]
        rw [List.length_cons, List.length_cons, ih]
        omega

theorem length_filter_mem_nodup (l nw : List String) (hl : l.Nodup) (hnw : nw.Nodup)
    (hsub : ∀ y ∈ nw, y ∈ l) :
    (l.filter (fun k => k ∈ nw)).length = nw.length := by
  have hperm : (l.filter (fun k => k ∈ nw)).Perm nw := by
    rw [List.perm_ext_iff_of_nodup (hl.filter _) hnw]
    intro a
    simp only [List.mem_filter, decide_eq_true_eq]
    exact ⟨fun h => h.2, fun h => ⟨hsub a h, h⟩⟩
  exact hperm.length_eq
theorem bfsMeasure_decrease (g : Graph) (res rest nw : List String) (cur : String)
    (hsub : ∀ y ∈ nw, y ∈ mapKeys g) (hdis : ∀ y ∈ nw, ¬ y ∈ res)
    (hnw : nw.Nodup) :
    bfsMeasure g (res ++ nw) (rest ++ nw) + 1 ≤ bfsMeasure g res (cur :: rest) := by
  unfold bfsMeasure
  have hconv : (mapKeys g).dedup.filter (fun k => ¬ k ∈ res ++ nw) =
      (mapKeys g).dedup.filter (fun k => ¬ (k ∈ res ∨ k ∈ nw)) := by
    apply List.filter_congr
    intro k _
    simp [List.mem_append]
  have hpart := length_filter_partition (mapKeys g).dedup res nw hdis
  have hcount := length_filter_mem_nodup (mapKeys g).dedup nw (List.nodup_dedup _) hnw
    (fun y hy => List.mem_dedup.mpr (hsub y hy))
  rw [hconv]
  simp only [List.length_append, List.length_cons]
  omega

/-- Soundness, monotonicity and closedness of the worklist loop, provided the
invariant holds and the fuel dominates the measure. -/
theorem bfsAux_spec (g : Graph) (t : String) :
    ∀ (fuel : Nat) (queue res : List String), BfsInv g t queue res →
      bfsMeasure g res queue ≤ fuel →
      (∀ y ∈ res, y ∈ bfsAux g fuel queue res) ∧
        (∀ y ∈ bfsAux g fuel queue res, Relation.TransGen (depStep g) t y) ∧
        (∀ x, (x = t ∨ x ∈ bfsAux g fuel queue res) →
          ∀ y, depStep g x y → y ∈ bfsAux g fuel queue res) := by
  intro fuel
  induction fuel with
  | zero =>
    intro queue res inv hm
    have hq : queue = [] := by
      unfold bfsMeasure at hm
      cases queue with
      | nil => rfl
      | cons a b => simp [List.length_cons] at hm
    subst hq
    refine ⟨fun y hy => hy, inv.sound, ?_⟩
    intro x hx y hstep
    rcases inv.frontier x hx with hq | hclosed
    · cases hq
    · exact hclosed y hstep
  | succ fuel ih =>
    intro queue res inv hm
    cases queue with
    | nil =>
      refine ⟨fun y hy => hy, inv.sound, ?_⟩
      intro x hx y hstep
      rcases inv.frontier x hx with hq | hclosed
      · cases hq
      · exact hclosed y hstep
    | cons cur rest =>
      set nw := newly res (Graph.getDependents g cur) with hnwdef
      have hunfold : bfsAux g (fuel + 1) (cur :: rest) res =
          bfsAux g fuel (rest ++ nw) (res ++ nw) := by
        rw [show bfsAux g (fuel + 1) (cur :: rest) res =
            bfsAux g fuel (processDeps res rest (Graph.getDependents g cur)).2
              (processDeps res rest (Graph.getDependents g cur)).1 from rfl,
          processDeps_eq]
      rw [hunfold]
      have hcur : Relation.TransGen (depStep g) t cur ∨ cur = t := by
        rcases inv.queueOk cur (List.mem_cons_self _ _) with h | h
        · exact Or.inr h
        · exact Or.inl (inv.sound cur h)
      have hstep_cur : ∀ y, y ∈ Graph.getDependents g cur →
          Relation.TransGen (depStep g) t y := by
        intro y hy
        rcases hcur with h | h
        · exact h.tail hy
        · exact h ▸ Relation.TransGen.single hy
      have inv' : BfsInv g t (rest ++ nw) (res ++ nw) := by
        refine ⟨?_, ?_, ?_⟩
        · intro y hy
          rcases List.mem_append.mp hy with h | h
          · exact inv.sound y h
          · exact hstep_cur y (mem_newly _ _ _ h).1
        · intro q hq
          rcases List.mem_append.mp hq with h | h
          · rcases inv.queueOk q (List.mem_cons_of_mem cur h) with h2 | h2
            · exact Or.inl h2
            · exact Or.inr (List.mem_append_left nw h2)
          · exact Or.inr (List.mem_append_right res h)
        · intro x hx
          by_cases hxnw : x ∈ nw
          · exact Or.inl (List.mem_append_right rest hxnw)
          · have hx' : x = t ∨ x ∈ res := by
              rcases hx with h | h
              · exact Or.inl h
              · rcases List.mem_append.mp h with h2 | h2
                · exact Or.inr h2
                · exact absurd h2 hxnw
            rcases inv.frontier x hx' with hq | hclosed
            · rcases List.mem_cons.mp hq with he | hm2
              · subst he
                refine Or.inr ?_
                intro y hy
                exact newly_complete res _ y hy
              · exact Or.inl (List.mem_append_left nw hm2)
            · refine Or.inr ?_
              intro y hy
              exact List.mem_append_left nw (hclosed y hy)
      have hdis : ∀ y ∈ nw, ¬ y ∈ res := fun y hy => (mem_newly _ _ _ hy).2
      have hsub : ∀ y ∈ nw, y ∈ mapKeys g := fun y hy =>
        getDependents_subset_keys g cur y (mem_newly _ _ _ hy).1
      have hm' : bfsMeasure g (res ++ nw) (rest ++ nw) ≤ fuel := by
        have := bfsMeasure_decrease g res rest nw cur hsub hdis (newly_nodup _ _)
        omega
      obtain ⟨mono, sound, closed⟩ := ih (rest ++ nw) (res ++ nw) inv' hm'
      exact ⟨fun y hy => mono y (List.mem_append_left nw hy), sound, closed⟩

/-- Membership in `collectDependentsDeep` is exactly transitive reverse
reachability. -/
theorem mem_collectDependentsDeep (g : Graph) (t y : String) :
    y ∈ Graph.collectDependentsDeep g t ↔ Relation.TransGen (depStep g) t y := by
  show y ∈ bfsAux g (2 * g.length + 2) [t] [] ↔ _
  have inv : BfsInv g t [t] [] := by
    refine ⟨?_, ?_, ?_⟩
    · intro y hy
      cases hy
    · intro q hq
      exact Or.inl (List.mem_singleton.mp hq)
    · intro x hx
      rcases hx with h | h
      · exact Or.inl (h ▸ List.mem_singleton.mpr rfl)
      · cases h
  have hm : bfsMeasure g [] [t] ≤ 2 * g.length + 2 := by
    unfold bfsMeasure
    have h1 : ((mapKeys g).dedup.filter (fun k => ¬ k ∈ ([] : List String))).length ≤
        g.length := by
      calc ((mapKeys g).dedup.filter _).length ≤ (mapKeys g).dedup.length :=
            List.length_filter_le _ _
        _ ≤ (mapKeys g).length := (List.dedup_sublist _).length_le
        _ = g.length := List.length_map _ _
    simp only [List.length_singleton]
    omega
  obtain ⟨mono, sound, closed⟩ := bfsAux_spec g t (2 * g.length + 2) [t] [] inv hm
  constructor
  · intro hy
    exact sound y hy
  · intro hreach
    induction hreach with
    | single hstep => exact closed t (Or.inl rfl) _ hstep
    | tail _ hstep ihy =>
      exact closed _ (Or.inr ihy) _ hstep
/-- Membership in `collectAffected`: the seeds plus every transitive reverse
dependent of a seed. -/
theorem mem_collectAffected (g : Graph) (S : List String) (y : String) :
    y ∈ Graph.collectAffected g S ↔
      y ∈ S ∨ ∃ s ∈ S, Relation.TransGen (depStep g) s y := by
  have main : ∀ (l acc : List String),
      (y ∈ l.foldl
          (fun acc t => setAddAll (addUnique acc t) (Graph.collectDependentsDeep g t))
          acc) ↔
        y ∈ acc ∨ ∃ s ∈ l, (y = s ∨ Relation.TransGen (depStep g) s y) := by
    intro l
    induction l with
    | nil => simp
    | cons t rest ih =>
      intro acc
      rw [List.foldl_cons, ih, mem_setAddAll, mem_addUnique, mem_collectDependentsDeep]
      simp only [List.mem_cons]
      constructor
      · rintro (((h | h) | h) | ⟨s, hs, h⟩)
        · exact Or.inl h
        · exact Or.inr ⟨t, Or.inl rfl, Or.inl h⟩
        · exact Or.inr ⟨t, Or.inl rfl, Or.inr h⟩
        · exact Or.inr ⟨s, Or.inr hs, h⟩
      · rintro (h | ⟨s, hs | hs, h⟩)
        · exact Or.inl (Or.inl (Or.inl h))
        · subst hs
          rcases h with h | h
          · exact Or.inl (Or.inl (Or.inr h))
          · exact Or.inl (Or.inr h)
        · exact Or.inr ⟨s, hs, h⟩
  show (y ∈ S.foldl _ (setAddAll [] S)) ↔ _
  rw [main S (setAddAll [] S), mem_setAddAll]
  simp only [List.not_mem_nil, false_or]
  constructor
  · rintro (h | ⟨s, hs, h | h⟩)
    · exact Or.inl h
    · exact Or.inl (h ▸ hs)
    · exact Or.inr ⟨s, hs, h⟩
  · rintro (h | ⟨s, hs, h⟩)
    · exact Or.inl h
    · exact Or.inr ⟨s, hs, Or.inr h⟩

/-- The deduplicated seed list is a prefix of `collectAffected`'s output
(seeds first, in the given order). -/
theorem collectAffected_seeds_first (g : Graph) (S : List String) :
    ∃ tail, Graph.collectAffected g S = dedupFirst S ++ tail := by
  have main : ∀ (l acc : List String),
      ∃ tail, (l.foldl
          (fun acc t => setAddAll (addUnique acc t) (Graph.collectDependentsDeep g t))
          acc) = acc ++ tail := by
    intro l
    induction l with
    | nil => exact fun acc => ⟨[], by simp⟩
    | cons t rest ih =>
      intro acc
      rw [List.foldl_cons]
      obtain ⟨t1, h1⟩ := addUnique_prefix acc t
      obtain ⟨t2, h2⟩ := setAddAll_prefix (addUnique acc t) (Graph.collectDependentsDeep g t)
      obtain ⟨t3, h3⟩ := ih (setAddAll (addUnique acc t) (Graph.collectDependentsDeep g t))
      refine ⟨t1 ++ t2 ++ t3, ?_⟩
      rw [h3, h2, h1]
      simp [List.append_assoc]
  exact main S (dedupFirst S)

/-- C2 (counterexample): on the graph with edges `a → s1`, `b → a`, `c → s2`
(arrows meaning "depends on"), `collectAffected ["s1", "s2"]` expands each
seed's reverse closure in turn and returns `[s1, s2, a, b, c]`, while a
breadth-first search over the reverse index from the seed set — the ordering
the spec prescribes — yields `[s1, s2, a, c, b]`.  The orders differ. -/
theorem C2_counterexample :
    Graph.collectAffected
        (applyOps [.record "a" "h" ["s1"] none none none none,
                   .record "b" "h" ["a"] none none none none,
                   .record "c" "h" ["s2"] none none none none])
        ["s1", "s2"] = ["s1", "s2", "a", "b", "c"] ∧
      specCollectAffected
        (applyOps [.record "a" "h" ["s1"] none none none none,
                   .record "b" "h" ["a"] none none none none,
                   .record "c" "h" ["s2"] none none none none])
        ["s1", "s2"] = ["s1", "s2", "a", "c", "b"] ∧
      ¬ Graph.collectAffected
          (applyOps [.record "a" "h" ["s1"] none none none none,
                     .record "b" "h" ["a"] none none none none,
                     .record "c" "h" ["s2"] none none none none])
          ["s1", "s2"] =
        specCollectAffected
          (applyOps [.record "a" "h" ["s1"] none none none none,
                     .record "b" "h" ["a"] none none none none,
                     .record "c" "h" ["s2"] none none none none])
          ["s1", "s2"] := by
  refine ⟨by decide, by decide, by decide⟩

/-- C2 (amended): `collectAffected` returns, as a set, exactly the seeds plus
the transitive reverse-dependency closure of the seeds; its order is
deterministic with the deduplicated seeds first in the given order (each
seed's breadth-first discoveries following per seed rather than in one
multi-source BFS); and on the spec's concrete two-node example it returns
`["B", "A"]`. -/
theorem C2_collect_affected_closure (g : Graph) (S : List String) :
    (∀ y, y ∈ Graph.collectAffected g S ↔
        y ∈ S ∨ ∃ s ∈ S, Relation.TransGen (depStep g) s y) ∧
      (∃ tail, Graph.collectAffected g S = dedupFirst S ++ tail) ∧
      Graph.collectAffected
        (applyOps [.record "A" "h1" ["B"] none none none none,
                   .record "B" "h2" [] none none none none]) ["B"] = ["B", "A"] :=
  ⟨fun y => mem_collectAffected g S y, collectAffected_seeds_first g S, by decide⟩

end Ionify
namespace Ionify

/-! ### Claim C5: canonical version inputs -/

theorem charListLe_cons_iff (x y : Char) (xs ys : List Char) :
    charListLe (x :: xs) (y :: ys) = true ↔
      (x.toNat < y.toNat ∨ (x.toNat = y.toNat ∧ charListLe xs ys = true)) := by
  simp only [charListLe]
  split_ifs with h1 h2
  · simp [h1]
  · constructor
    · intro h
      cases h
    · intro h
      rcases h with h | ⟨h, _⟩ <;> omega
  · have hxy : x.toNat = y.toNat := by omega
    simp [hxy]

theorem charListLe_total (a b : List Char) : charListLe a b = true ∨ charListLe b a = true := by
  induction a generalizing b with
  | nil => left; rfl
  | cons x xs ih =>
    cases b with
    | nil => right; rfl
    | cons y ys =>
      rw [charListLe_cons_iff, charListLe_cons_iff]
      rcases Nat.lt_trichotomy x.toNat y.toNat with h | h | h
      · exact Or.inl (Or.inl h)
      · rcases ih ys with h2 | h2
        · exact Or.inl (Or.inr ⟨h, h2⟩)
        · exact Or.inr (Or.inr ⟨h.symm, h2⟩)
      · exact Or.inr (Or.inl h)

theorem charListLe_trans (a b c : List Char) (h1 : charListLe a b = true)
    (h2 : charListLe b c = true) : charListLe a c = true := by
  induction a generalizing b c with
  | nil => rfl
  | cons x xs ih =>
    cases b with
    | nil => simp [charListLe] at h1
    | cons y ys =>
      cases c with
      | nil => simp [charListLe] at h2
      | cons z zs =>
        rw [charListLe_cons_iff] at h1 h2 ⊢
        rcases h1 with h1 | ⟨h1e, h1t⟩
        · rcases h2 with h2 | ⟨h2e, _⟩
          · exact Or.inl (by omega)
          · exact Or.inl (by omega)
        · rcases h2 with h2 | ⟨h2e, h2t⟩
          · exact Or.inl (by omega)
          · exact Or.inr ⟨by omega, ih ys zs h1t h2t⟩

instance jsStrLeIsTotal : IsTotal String (fun a b => jsStrLe a b = true) :=
  ⟨fun a b => charListLe_total a.data b.data⟩

instance jsStrLeIsTrans : IsTrans String (fun a b => jsStrLe a b = true) :=
  ⟨fun a b c => charListLe_trans a.data b.data c.data⟩

theorem jsSortStrings_sorted (l : List String) :
    (jsSortStrings l).Sorted (fun a b => jsStrLe a b = true) :=
  List.sorted_insertionSort _ l

theorem jsSortStrings_perm (l : List String) : (jsSortStrings l).Perm l :=
  List.perm_insertionSort _ l

/-- C5 (counterexample): with `treeshake.include = ["a", "a"]` and two plugins
both named `"p"`, the canonical inputs keep both duplicates: neither the
treeshake include list nor the plugins list is duplicate-free. -/
theorem C5_counterexample :
    ¬ (computeCanonicalVersionInputs
        { parserMode := none, minifier := none,
          treeshake := .config none (some ["a", "a"]) none,
          scopeHoist := .off,
          plugins := some [.named "p", .named "p"],
          entry := .absent, cssOptions := none, assetOptions := none }).plugins.Nodup ∧
      (computeCanonicalVersionInputs
        { parserMode := none, minifier := none,
          treeshake := .config none (some ["a", "a"]) none,
          scopeHoist := .off,
          plugins := some [.named "p", .named "p"],
          entry := .absent, cssOptions := none, assetOptions := none }).treeshake.map
        (fun ts => ts.includeList) = some ["a", "a"] ∧
      ¬ (["a", "a"] : List String).Nodup := by
  refine ⟨by decide, by decide, by decide⟩

/-- C5 (amended): for every input configuration the canonical version inputs
have their set-like fields sorted ascending (code-unit order), but duplicates
are preserved rather than removed: the plugins list is a permutation of the
extracted plugin names, and an object-form treeshake's include/exclude lists
are permutations of the given arrays. -/
theorem C5_canonical_sorted_dups_kept (config : VersionConfigInput) :
    (computeCanonicalVersionInputs config).plugins.Sorted
        (fun a b => jsStrLe a b = true) ∧
      (computeCanonicalVersionInputs config).plugins.Perm
        ((config.plugins.getD []).filterMap pluginName) ∧
      (∀ ts, (computeCanonicalVersionInputs config).treeshake = some ts →
        ts.includeList.Sorted (fun a b => jsStrLe a b = true) ∧
          ts.excludeList.Sorted (fun a b => jsStrLe a b = true)) ∧
      (∀ m inc exc, config.treeshake = .config m inc exc →
        (computeCanonicalVersionInputs config).treeshake.elim False
          (fun ts => ts.includeList.Perm (inc.getD []) ∧
            ts.excludeList.Perm (exc.getD []))) := by
  refine ⟨?_, ?_, ?_, ?_⟩
  · show (match config.plugins with
      | some ps => jsSortStrings (ps.filterMap pluginName)
      | none => []).Sorted _
    cases config.plugins with
    | none => exact List.sorted_nil
    | some ps => exact jsSortStrings_sorted _
  · show (match config.plugins with
      | some ps => jsSortStrings (ps.filterMap pluginName)
      | none => []).Perm _
    cases config.plugins with
    | none => simp
    | some ps => exact jsSortStrings_perm _
  · intro ts hts
    show ts.includeList.Sorted _ ∧ ts.excludeList.Sorted _
    have : normalizeTreeshake config.treeshake = some ts := hts
    cases htt : config.treeshake with
    | off => rw [htt] at this; cases this
    | enabled =>
      rw [htt] at this
      cases this
      exact ⟨List.sorted_nil, List.sorted_nil⟩
    | mode s =>
      rw [htt] at this
      simp only [normalizeTreeshake, Option.some_inj] at this
      rw [← this]
      exact ⟨List.sorted_nil, List.sorted_nil⟩
    | config m inc exc =>
      rw [htt] at this
      simp only [normalizeTreeshake, Option.some_inj] at this
      rw [← this]
      cases inc with
      | none => cases exc with
        | none => exact ⟨List.sorted_nil, List.sorted_nil⟩
        | some e => exact ⟨List.sorted_nil, jsSortStrings_sorted _⟩
      | some i => cases exc with
        | none => exact ⟨jsSortStrings_sorted _, List.sorted_nil⟩
        | some e => exact ⟨jsSortStrings_sorted _, jsSortStrings_sorted _⟩
  · intro m inc exc htt
    show (normalizeTreeshake config.treeshake).elim False _
    rw [htt]
    simp only [normalizeTreeshake, Option.elim_some]
    cases inc with
    | none => cases exc with
      | none => exact ⟨List.Perm.refl _, List.Perm.refl _⟩
      | some e => exact ⟨List.Perm.refl _, jsSortStrings_perm _⟩
    | some i => cases exc with
      | none => exact ⟨jsSortStrings_perm _, List.Perm.refl _⟩
      | some e => exact ⟨jsSortStrings_perm _, jsSortStrings_perm _⟩

/-- Witness for the amended C5 theorem at a concrete configuration with
duplicated plugin names and include entries. -/
theorem C5_canonical_sorted_dups_kept_witness :
    (computeCanonicalVersionInputs
        { parserMode := none, minifier := none,
          treeshake := .config none (some ["b", "a", "a"]) none,
          scopeHoist := .off,
          plugins := some [.named "q", .named "p"],
          entry := .absent, cssOptions := none, assetOptions := none }).plugins.Sorted
        (fun a b => jsStrLe a b = true) ∧
      ({ mode := "safe", includeList := ["a", "a", "b"],
         excludeList := [] } : TreeshakeNorm).includeList.Sorted
        (fun a b => jsStrLe a b = true) ∧
      (computeCanonicalVersionInputs
        { parserMode := none, minifier := none,
          treeshake := .config none (some ["b", "a", "a"]) none,
          scopeHoist := .off,
          plugins := some [.named "q", .named "p"],
          entry := .absent, cssOptions := none, assetOptions := none }).treeshake.elim
        False (fun ts => ts.includeList.Perm ["b", "a", "a"] ∧ ts.excludeList.Perm []) := by
  refine ⟨(C5_canonical_sorted_dups_kept _).1,
    ((C5_canonical_sorted_dups_kept
        { parserMode := none, minifier := none,
          treeshake := .config none (some ["b", "a", "a"]) none,
          scopeHoist := .off,
          plugins := some [.named "q", .named "p"],
          entry := .absent, cssOptions := none, assetOptions := none }).2.2.1
      { mode := "safe", includeList := ["a", "a", "b"], excludeList := [] }
      (by decide)).1,
    (C5_canonical_sorted_dups_kept
        { parserMode := none, minifier := none,
          treeshake := .config none (some ["b", "a", "a"]) none,
          scopeHoist := .off,
          plugins := some [.named "q", .named "p"],
          entry := .absent, cssOptions := none, assetOptions := none }).2.2.2
      none (some ["b", "a", "a"]) none rfl⟩

end Ionify
namespace Ionify

/-! ### Claim C8: worker-pool crash handling -/

/-- C8 (counterexample): a two-worker pool with jobs `A` (on worker 1) and `B`
(on worker 2) in flight.  Worker 2 exits abnormally: `B` is re-queued at the
head and worker 3 spawned.  Worker 1 finishes `A` and picks `B` up.  Worker 1
then also exits abnormally: `B` is re-queued at the head a second time, a
fourth worker is spawned, and no result — in particular no `TransformError` —
is ever delivered for `B`; its callback is still registered.  The pool retries
without limit instead of surfacing an error on the second crash. -/
theorem C8_counterexample :
    (onWorkerExit
        (onWorkerMessage
          (onWorkerExit
            { workers := [1, 2], queue := [],
              active := [(1, ⟨⟨"A", "ca", "/a", ".ts"⟩, 2⟩),
                         (2, ⟨⟨"B", "cb", "/b", ".ts"⟩, 2⟩)],
              callbacks := ["A", "B"], delivered := [], pendingBytes := 4,
              closed := false }
            2 1 3)
          1 ⟨"A", "/a", "out", none, "js", none⟩)
        1 1 4).queue = [⟨⟨"B", "cb", "/b", ".ts"⟩, 2⟩] ∧
      (onWorkerExit
        (onWorkerMessage
          (onWorkerExit
            { workers := [1, 2], queue := [],
              active := [(1, ⟨⟨"A", "ca", "/a", ".ts"⟩, 2⟩),
                         (2, ⟨⟨"B", "cb", "/b", ".ts"⟩, 2⟩)],
              callbacks := ["A", "B"], delivered := [], pendingBytes := 4,
              closed := false }
            2 1 3)
          1 ⟨"A", "/a", "out", none, "js", none⟩)
        1 1 4).delivered = [⟨"A", "/a", "out", none, "js", none⟩] ∧
      (onWorkerExit
        (onWorkerMessage
          (onWorkerExit
            { workers := [1, 2], queue := [],
              active := [(1, ⟨⟨"A", "ca", "/a", ".ts"⟩, 2⟩),
                         (2, ⟨⟨"B", "cb", "/b", ".ts"⟩, 2⟩)],
              callbacks := ["A", "B"], delivered := [], pendingBytes := 4,
              closed := false }
            2 1 3)
          1 ⟨"A", "/a", "out", none, "js", none⟩)
        1 1 4).callbacks = ["B"] := by
  refine ⟨by decide, by decide, by decide⟩

/-- C8 (amended): on a worker error, or on an abnormal exit of a non-closed
pool, the in-flight job is re-queued at the head of the queue and a
replacement worker is spawned — unconditionally, with no retry counter: the
handler never delivers any result (so no `TransformError` reaches the caller)
and leaves the registered callbacks untouched, however many times the same
job has already crashed. -/
theorem C8_crash_requeues_without_limit (s : PoolState) (w freshId : Nat)
    (code : Int) (item : QueueItem) (hact : activeGet s w = some item)
    (hclosed : s.closed = false) (hcode : ¬ code = 0) :
    onWorkerExit s w code freshId =
        { s with active := activeDelete s w, queue := item :: s.queue,
                 workers := s.workers ++ [freshId] } ∧
      onWorkerError s w freshId =
        { s with active := activeDelete s w, queue := item :: s.queue,
                 workers := s.workers ++ [freshId] } ∧
      (onWorkerExit s w code freshId).delivered = s.delivered ∧
      (onWorkerExit s w code freshId).callbacks = s.callbacks := by
  have hexit : onWorkerExit s w code freshId =
      { s with active := activeDelete s w, queue := item :: s.queue,
               workers := s.workers ++ [freshId] } := by
    unfold onWorkerExit
    rw [hact]
    rw [if_pos ?_]
    · rfl
    · refine ⟨?_, hcode⟩
      show ¬ s.closed = true
      simp [hclosed]
  refine ⟨hexit, ?_, by rw [hexit], by rw [hexit]⟩
  unfold onWorkerError
  rw [hact]
  rfl

/-- Witness for the amended C8 theorem at the concrete one-job pool state. -/
theorem C8_crash_requeues_without_limit_witness :
    onWorkerExit
        { workers := [1], queue := [], active := [(1, ⟨⟨"B", "cb", "/b", ".ts"⟩, 2⟩)],
          callbacks := ["B"], delivered := [], pendingBytes := 2, closed := false }
        1 1 2 =
      { workers := [1, 2], queue := [⟨⟨"B", "cb", "/b", ".ts"⟩, 2⟩], active := [],
        callbacks := ["B"], delivered := [], pendingBytes := 2, closed := false } := by
  have := (C8_crash_requeues_without_limit
    { workers := [1], queue := [], active := [(1, ⟨⟨"B", "cb", "/b", ".ts"⟩, 2⟩)],
      callbacks := ["B"], delivered := [], pendingBytes := 2, closed := false }
    1 2 1 ⟨⟨"B", "cb", "/b", ".ts"⟩, 2⟩ (by decide) rfl (by decide)).1
  rw [this]
  decide

end Ionify
namespace Ionify

/-! ### Claims C9 and C10: HMR coordinator

Freshness of the update ids rests on injectivity of the decimal rendering in
`mkUpdateId`, proved here from first principles about `Nat.toDigitsCore`. -/

/-- The decimal digits of `n`, most significant first. -/
def myDigits (n : Nat) : List Char :=
  if _h : n < 10 then [Nat.digitChar n]
  else myDigits (n / 10) ++ [Nat.digitChar (n % 10)]
  termination_by n
  decreasing_by exact Nat.div_lt_self (by omega) (by omega)

theorem toDigitsCore_eq_myDigits :
    ∀ (fuel n : Nat) (acc : List Char), n < fuel →
      Nat.toDigitsCore 10 fuel n acc = myDigits n ++ acc := by
  intro fuel
  induction fuel with
  | zero =>
    intro n acc h
    exact absurd h (by omega)
  | succ fuel ih =>
    intro n acc h
    show (if n / 10 = 0 then Nat.digitChar (n % 10) :: acc
      else Nat.toDigitsCore 10 fuel (n / 10) (Nat.digitChar (n % 10) :: acc)) = _
    by_cases h10 : n < 10
    · rw [if_pos (by omega)]
      rw [myDigits, dif_pos h10, Nat.mod_eq_of_lt h10]
      rfl
    · rw [if_neg (by omega)]
      rw [ih (n / 10) _ (by omega)]
      conv_rhs => rw [myDigits]
      rw [dif_neg h10]
      simp

theorem digitVal_digitChar (d : Nat) (h : d < 10) :
    (Nat.digitChar d).toNat - 48 = d := by
  interval_cases d <;> rfl

theorem digitChar_ne_hyphen (d : Nat) (h : d < 10) : ¬ Nat.digitChar d = '-' := by
  interval_cases d <;> decide

/-- Decimal interpretation of a digit string. -/
def interpDigits (cs : List Char) : Nat :=
  cs.foldl (fun a c => a * 10 + (c.toNat - 48)) 0

theorem interpDigits_append_digit (cs : List Char) (c : Char) :
    interpDigits (cs ++ [c]) = interpDigits cs * 10 + (c.toNat - 48) := by
  unfold interpDigits
  rw [List.foldl_append]
  rfl

theorem interpDigits_myDigits (n : Nat) : interpDigits (myDigits n) = n := by
  induction n using Nat.strong_induction_on with
  | _ n ih =>
    by_cases h : n < 10
    · rw [myDigits, dif_pos h]
      have hone : interpDigits [Nat.digitChar n] = (Nat.digitChar n).toNat - 48 := by
        unfold interpDigits
        simp
      rw [hone, digitVal_digitChar n h]
    · rw [myDigits, dif_neg h]
      rw [interpDigits_append_digit]
      rw [ih (n / 10) (Nat.div_lt_self (by omega) (by omega))]
      rw [digitVal_digitChar (n % 10) (Nat.mod_lt n (by omega))]
      omega

theorem myDigits_no_hyphen (n : Nat) : ¬ '-' ∈ myDigits n := by
  induction n using Nat.strong_induction_on with
  | _ n ih =>
    by_cases h : n < 10
    · rw [myDigits, dif_pos h]
      intro hc
      exact digitChar_ne_hyphen n h (List.mem_singleton.mp hc).symm
    · rw [myDigits, dif_neg h]
      intro hc
      rcases List.mem_append.mp hc with h1 | h2
      · exact ih (n / 10) (Nat.div_lt_self (by omega) (by omega)) h1
      · exact digitChar_ne_hyphen (n % 10) (Nat.mod_lt n (by omega))
          (List.mem_singleton.mp h2).symm

theorem natRepr_data (n : Nat) : (Nat.repr n).data = myDigits n := by
  show (List.asString (Nat.toDigits 10 n)).data = _
  rw [Nat.toDigits, toDigitsCore_eq_myDigits (n + 1) n [] (by omega)]
  simp [List.asString]

theorem natRepr_inj (m n : Nat) (h : Nat.repr m = Nat.repr n) : m = n := by
  have hd : myDigits m = myDigits n := by
    rw [← natRepr_data, ← natRepr_data, h]
  have := interpDigits_myDigits m
  rw [hd, interpDigits_myDigits n] at this
  omega

theorem natRepr_no_hyphen (n : Nat) : ¬ '-' ∈ (Nat.repr n).data := by
  rw [natRepr_data]
  exact myDigits_no_hyphen n

theorem hyphen_split_inj (a : List Char) :
    ∀ (c b d : List Char), ¬ '-' ∈ a → ¬ '-' ∈ c →
      a ++ '-' :: b = c ++ '-' :: d → a = c ∧ b = d := by
  induction a with
  | nil =>
    intro c b d _ hc h
    cases c with
    | nil =>
      simp only [List.nil_append] at h
      exact ⟨rfl, (List.cons.injEq _ _ _ _).mp h |>.2⟩
    | cons y ys =>
      simp only [List.nil_append, List.cons_append, List.cons.injEq] at h
      exact absurd (h.1 ▸ List.mem_cons_self y ys) (h.1 ▸ hc)
  | cons x xs ih =>
    intro c b d ha hc h
    cases c with
    | nil =>
      simp only [List.cons_append, List.nil_append, List.cons.injEq] at h
      exact absurd (h.1 ▸ List.mem_cons_self x xs) (fun hm => ha (h.1 ▸ hm))
    | cons y ys =>
      simp only [List.cons_append, List.cons.injEq] at h
      have hxs := ih ys b d (fun hm => ha (List.mem_cons_of_mem x hm))
        (fun hm => hc (List.mem_cons_of_mem y hm)) h.2
      exact ⟨by rw [h.1, hxs.1], hxs.2⟩

theorem mkUpdateId_inj_counter (t1 n1 t2 n2 : Nat)
    (h : mkUpdateId t1 n1 = mkUpdateId t2 n2) : n1 = n2 := by
  unfold mkUpdateId at h
  have hdata : (Nat.repr t1).data ++ '-' :: (Nat.repr n1).data =
      (Nat.repr t2).data ++ '-' :: (Nat.repr n2).data := by
    have := congrArg String.data h
    simpa [String.data_append] using this
  have := hyphen_split_inj (Nat.repr t1).data (Nat.repr t2).data
    (Nat.repr n1).data (Nat.repr n2).data (natRepr_no_hyphen t1) (natRepr_no_hyphen t2)
    hdata
  exact natRepr_inj n1 n2 (String.ext this.2)

end Ionify
namespace Ionify

/-- Every pending key was minted with a counter below `nextId`. -/
def HMRInv (s : HMRState) : Prop :=
  ∀ k ∈ mapKeys s.pending, ∃ t n, n < s.nextId ∧ k = mkUpdateId t n

theorem HMRInv_empty (nextId : Nat) (sent : List (String × HMRUpdateSummary)) :
    HMRInv { pending := [], nextId := nextId, sent := sent } := by
  intro k hk
  cases hk

/-- Under the invariant, the id minted by the next `queueUpdate` is fresh. -/
theorem mkUpdateId_fresh (s : HMRState) (now : Nat) (hinv : HMRInv s) :
    ¬ mkUpdateId now s.nextId ∈ mapKeys s.pending := by
  intro hmem
  obtain ⟨t, n, hlt, heq⟩ := hinv _ hmem
  have := mkUpdateId_inj_counter t n now s.nextId heq.symm
  omega

theorem mapSet_of_not_mem {α : Type} (m : List (String × α)) (k : String) (v : α)
    (h : ¬ k ∈ mapKeys m) : mapSet m k v = m ++ [(k, v)] := by
  induction m with
  | nil => rfl
  | cons e rest ih =>
    simp only [mapSet]
    have hne : ¬ e.1 = k := by
      intro hc
      exact h (by rw [mapKeys_cons, hc]; exact List.mem_cons_self _ _)
    rw [if_neg hne,
      ih (fun hc => h (by rw [mapKeys_cons]; exact List.mem_cons_of_mem _ hc))]
    rfl

theorem queueUpdate_empty (now : Nat) (s : HMRState) :
    queueUpdate now [] s = (none, s) := rfl

/-- Anatomy of a non-empty `queueUpdate`. -/
theorem queueUpdate_nonempty (now : Nat) (mods : List PendingHMRModule) (s : HMRState)
    (h : ¬ mods = []) :
    queueUpdate now mods s =
      (some { id := mkUpdateId now s.nextId, timestamp := now,
              modules := mods.map summarizeModule },
       { pending := mapSet s.pending (mkUpdateId now s.nextId)
           { summary := { id := mkUpdateId now s.nextId, timestamp := now,
                          modules := mods.map summarizeModule },
             modules := mods, createdAt := now }
         nextId := s.nextId + 1
         sent := s.sent ++
           [("update",
             { id := mkUpdateId now s.nextId, timestamp := now,
               modules := mods.map summarizeModule })] }) := by
  unfold queueUpdate
  rw [if_neg h]

theorem HMRInv_queueUpdate (now : Nat) (mods : List PendingHMRModule) (s : HMRState)
    (hinv : HMRInv s) : HMRInv (queueUpdate now mods s).2 := by
  by_cases h : mods = []
  · subst h
    exact hinv
  · rw [queueUpdate_nonempty now mods s h]
    dsimp only
    intro k hk
    rw [mapKeys_mapSet] at hk
    by_cases hmem : mkUpdateId now s.nextId ∈ mapKeys s.pending
    · rw [if_pos hmem] at hk
      obtain ⟨t, n, hlt, heq⟩ := hinv k hk
      exact ⟨t, n, show n < s.nextId + 1 by omega, heq⟩
    · rw [if_neg hmem] at hk
      rcases List.mem_append.mp hk with h1 | h2
      · obtain ⟨t, n, hlt, heq⟩ := hinv k h1
        exact ⟨t, n, show n < s.nextId + 1 by omega, heq⟩
      · exact ⟨now, s.nextId, show s.nextId < s.nextId + 1 by omega,
          (List.mem_singleton.mp h2)⟩

theorem HMRInv_consumeUpdate (id : String) (s : HMRState) (hinv : HMRInv s) :
    HMRInv (consumeUpdate id s).2 := by
  unfold consumeUpdate
  cases hget : mapGet s.pending id with
  | none => exact hinv
  | some p =>
    intro k hk
    rw [mapKeys_mapDelete] at hk
    exact hinv k (List.mem_of_mem_filter hk)

/-- A key that is absent and below the counter stays absent under any further
operations. -/
def NotFutureKey (k : String) (s : HMRState) : Prop :=
  mapGet s.pending k = none ∧ ∃ t n, k = mkUpdateId t n ∧ n < s.nextId

theorem NotFutureKey_apply (k : String) (s : HMRState) (op : HMROp)
    (h : NotFutureKey k s) : NotFutureKey k (applyHMROp s op) := by
  obtain ⟨hnone, t, n, hk, hlt⟩ := h
  cases op with
  | consume id =>
    show NotFutureKey k (consumeUpdate id s).2
    unfold consumeUpdate
    cases hget : mapGet s.pending id with
    | none => exact ⟨hnone, t, n, hk, hlt⟩
    | some p =>
      refine ⟨?_, t, n, hk, hlt⟩
      by_cases hid : k = id
      · subst hid
        exact mapGet_mapDelete_self _ _
      · rw [mapGet_mapDelete_ne _ _ _ hid]
        exact hnone
  | queue now mods =>
    show NotFutureKey k (queueUpdate now mods s).2
    by_cases hm : mods = []
    · subst hm
      exact ⟨hnone, t, n, hk, hlt⟩
    · rw [queueUpdate_nonempty now mods s hm]
      refine ⟨?_, t, n, hk, show n < s.nextId + 1 by omega⟩
      have hne : ¬ k = mkUpdateId now s.nextId := by
        intro hc
        have := mkUpdateId_inj_counter t n now s.nextId (hk ▸ hc)
        omega
      rw [mapGet_mapSet_ne _ _ _ _ hne]
      exact hnone

theorem NotFutureKey_run (k : String) (s : HMRState) (ops : List HMROp)
    (h : NotFutureKey k s) : NotFutureKey k (runHMROps s ops) := by
  induction ops generalizing s with
  | nil => exact h
  | cons op rest ih => exact ih (applyHMROp s op) (NotFutureKey_apply k s op h)

/-- C9: pending updates are consumed exactly once.  After queueing a non-empty
update, the first `consumeUpdate` of its id returns the stored entry and
removes it; the id then stays absent under every further sequence of
queue/consume operations (so any later `consumeUpdate` of it returns nothing,
surfaced as 404); and entries under other ids are untouched by the
consumption. -/
theorem C9_consume_exactly_once (s : HMRState) (now : Nat)
    (mods : List PendingHMRModule) (hmods : ¬ mods = []) :
    ∀ summary s1, queueUpdate now mods s = (some summary, s1) →
      (consumeUpdate summary.id s1).1 =
          some { summary := summary, modules := mods, createdAt := now } ∧
        (consumeUpdate summary.id (consumeUpdate summary.id s1).2).1 = none ∧
        (∀ ops, mapGet (runHMROps (consumeUpdate summary.id s1).2 ops).pending
          summary.id = none) ∧
        (∀ j, ¬ j = summary.id →
          mapGet (consumeUpdate summary.id s1).2.pending j = mapGet s.pending j) := by
  intro summary s1 hq
  rw [queueUpdate_nonempty now mods s hmods] at hq
  have hsum : summary =
      { id := mkUpdateId now s.nextId, timestamp := now,
        modules := mods.map summarizeModule } := by
    have := congrArg Prod.fst hq
    simpa using this.symm
  have hs1 : s1 =
      { pending := mapSet s.pending (mkUpdateId now s.nextId)
          { summary := { id := mkUpdateId now s.nextId, timestamp := now,
                         modules := mods.map summarizeModule },
            modules := mods, createdAt := now }
        nextId := s.nextId + 1
        sent := s.sent ++
          [("update",
            { id := mkUpdateId now s.nextId, timestamp := now,
              modules := mods.map summarizeModule })] } := by
    have := congrArg Prod.snd hq
    simpa using this.symm
  have hid : summary.id = mkUpdateId now s.nextId := by rw [hsum]
  have hget1 : mapGet s1.pending summary.id =
      some { summary := summary, modules := mods, createdAt := now } := by
    rw [hs1, hid]
    rw [mapGet_mapSet_self]
    rw [hsum]
  have hcons1 : consumeUpdate summary.id s1 =
      (some { summary := summary, modules := mods, createdAt := now },
       { s1 with pending := mapDelete s1.pending summary.id }) := by
    unfold consumeUpdate
    rw [hget1]
  refine ⟨by rw [hcons1], ?_, ?_, ?_⟩
  · rw [hcons1]
    show (consumeUpdate summary.id _).1 = none
    unfold consumeUpdate
    rw [show mapGet (mapDelete s1.pending summary.id) summary.id = none from
      mapGet_mapDelete_self _ _]
  · intro ops
    have hnfk : NotFutureKey summary.id (consumeUpdate summary.id s1).2 := by
      rw [hcons1]
      refine ⟨mapGet_mapDelete_self _ _, now, s.nextId, hid, ?_⟩
      rw [hs1]
      show s.nextId < s.nextId + 1
      omega
    exact (NotFutureKey_run _ _ ops hnfk).1
  · intro j hj
    rw [hcons1]
    show mapGet (mapDelete s1.pending summary.id) j = _
    rw [mapGet_mapDelete_ne _ _ _ hj, hs1]
    rw [mapGet_mapSet_ne]
    intro hc
    exact hj (by rw [hid]; exact hc)

/-- Witness for C9 at a concrete queue-then-consume run from the empty
coordinator state. -/
theorem C9_consume_exactly_once_witness :
    (consumeUpdate "100-1"
        (queueUpdate 100 [{ absPath := "/a", url := "/a", hash := some "h",
                            reason := "changed" }]
          { pending := [], nextId := 1, sent := [] }).2).1 =
      some { summary := { id := "100-1", timestamp := 100,
                          modules := [{ url := "/a", hash := some "h",
                                        reason := "changed" }] },
             modules := [{ absPath := "/a", url := "/a", hash := some "h",
                           reason := "changed" }],
             createdAt := 100 } := by
  have := (C9_consume_exactly_once
    { pending := [], nextId := 1, sent := [] } 100
    [{ absPath := "/a", url := "/a", hash := some "h", reason := "changed" }]
    (by decide)
    { id := "100-1", timestamp := 100,
      modules := [{ url := "/a", hash := some "h", reason := "changed" }] }
    ((queueUpdate 100 [{ absPath := "/a", url := "/a", hash := some "h",
                         reason := "changed" }]
        { pending := [], nextId := 1, sent := [] }).2)
    (by rfl)).1
  simpa using this

/-- C10: `queueUpdate` with an empty module list returns null and changes
nothing (no id assigned, no entry stored, no broadcast); with a non-empty list
it stores exactly one entry under a fresh id and broadcasts exactly one
`update` summary whose per-module content is only url, hash and reason. -/
theorem C10_queue_update_behaviour (now : Nat) (s : HMRState)
    (mods : List PendingHMRModule) (hinv : HMRInv s) :
    (queueUpdate now [] s = (none, s)) ∧
      (¬ mods = [] →
        ∃ summary, queueUpdate now mods s =
            (some summary,
             { pending := s.pending ++
                 [(summary.id,
                   { summary := summary, modules := mods, createdAt := now })]
               nextId := s.nextId + 1
               sent := s.sent ++ [("update", summary)] }) ∧
          summary.modules = mods.map summarizeModule ∧
          ¬ summary.id ∈ mapKeys s.pending) := by
  refine ⟨queueUpdate_empty now s, ?_⟩
  intro hmods
  have hfresh := mkUpdateId_fresh s now hinv
  refine ⟨{ id := mkUpdateId now s.nextId, timestamp := now,
            modules := mods.map summarizeModule }, ?_, rfl, hfresh⟩
  rw [queueUpdate_nonempty now mods s hmods]
  rw [mapSet_of_not_mem _ _ _ hfresh]

/-- Witness for C10 at a concrete non-empty update on the empty state. -/
theorem C10_queue_update_behaviour_witness :
    queueUpdate 100 [] { pending := [], nextId := 1, sent := [] } =
        (none, { pending := [], nextId := 1, sent := [] }) ∧
      ∃ summary,
        queueUpdate 100 [{ absPath := "/a", url := "/a", hash := some "h",
                           reason := "changed" }]
            { pending := [], nextId := 1, sent := [] } =
          (some summary,
           { pending := [(summary.id,
               { summary := summary,
                 modules := [{ absPath := "/a", url := "/a", hash := some "h",
                               reason := "changed" }],
                 createdAt := 100 })]
             nextId := 2
             sent := [("update", summary)] }) ∧
          summary.modules = [{ url := "/a", hash := some "h", reason := "changed" }] ∧
          ¬ summary.id ∈ mapKeys ([] : List (String × PendingUpdate)) := by
  have h := C10_queue_update_behaviour 100 { pending := [], nextId := 1, sent := [] }
    [{ absPath := "/a", url := "/a", hash := some "h", reason := "changed" }]
    (HMRInv_empty 1 [])
  refine ⟨h.1, ?_⟩
  obtain ⟨summary, heq, hmods, hfresh⟩ := h.2 (by decide)
  exact ⟨summary, heq, hmods, hfresh⟩

end Ionify
namespace Ionify

/-! ### Claims C6 and C7: path mapper

Path strings are reasoned about through their `splitSlash` decomposition.  An
absolute normalized path is a fixed point of `pathResolveAbs`: `/` plus clean
segments (none of them empty, `"."`, `".."`, or slash-containing) joined by
`/`. -/

theorem splitSlash_nil : splitSlash [] = [[]] := rfl

theorem splitSlash_cons_slash (rest : List Char) :
    splitSlash ('/' :: rest) = [] :: splitSlash rest := by
  conv_lhs => unfold splitSlash
  rw [if_pos rfl]

theorem splitSlash_ne_nil (l : List Char) : ¬ splitSlash l = [] := by
  cases l with
  | nil => intro hcon; cases hcon
  | cons x xs =>
    unfold splitSlash
    by_cases hx : x = '/'
    · rw [if_pos hx]
      intro hcon
      cases hcon
    · rw [if_neg hx]
      cases splitSlash xs with
      | nil => intro hcon; cases hcon
      | cons s ss => intro hcon; cases hcon

theorem splitSlash_cons_other (c : Char) (rest : List Char) (hc : ¬ c = '/') :
    ∃ s ss, splitSlash rest = s :: ss ∧ splitSlash (c :: rest) = (c :: s) :: ss := by
  cases hsp : splitSlash rest with
  | nil => exact absurd hsp (splitSlash_ne_nil rest)
  | cons s ss =>
    refine ⟨s, ss, rfl, ?_⟩
    unfold splitSlash
    rw [if_neg hc, hsp]

theorem splitSlash_append (a b : List Char) :
    splitSlash (a ++ '/' :: b) = splitSlash a ++ splitSlash b := by
  induction a with
  | nil =>
    rw [List.nil_append, splitSlash_cons_slash, splitSlash_nil]
    rfl
  | cons c rest ih =>
    by_cases hc : c = '/'
    · subst hc
      rw [List.cons_append, splitSlash_cons_slash, splitSlash_cons_slash, ih]
      rfl
    · obtain ⟨s, ss, hsp, heq⟩ := splitSlash_cons_other c (rest ++ '/' :: b) hc
      rw [List.cons_append, heq]
      obtain ⟨s2, ss2, hsp2, heq2⟩ := splitSlash_cons_other c rest hc
      rw [heq2]
      rw [ih, hsp2] at hsp
      rw [List.cons_append] at hsp ⊢
      rw [(List.cons.injEq _ _ _ _).mp hsp |>.1, (List.cons.injEq _ _ _ _).mp hsp |>.2]

/-- No piece produced by `splitSlash` contains a slash. -/
theorem splitSlash_no_slash (l : List Char) :
    ∀ p ∈ splitSlash l, ¬ '/' ∈ p := by
  induction l with
  | nil =>
    intro p hp
    rw [splitSlash_nil, List.mem_singleton] at hp
    subst hp
    exact List.not_mem_nil _
  | cons c rest ih =>
    intro p hp
    by_cases hc : c = '/'
    · subst hc
      rw [splitSlash_cons_slash] at hp
      rcases List.mem_cons.mp hp with he | hm
      · subst he
        exact List.not_mem_nil _
      · exact ih p hm
    · obtain ⟨s, ss, hsp, heq⟩ := splitSlash_cons_other c rest hc
      rw [heq] at hp
      rcases List.mem_cons.mp hp with he | hm
      · subst he
        intro hmem
        rcases List.mem_cons.mp hmem with h1 | h2
        · exact hc h1.symm
        · exact ih s (hsp ▸ List.mem_cons_self s ss) h2
      · exact ih p (hsp ▸ List.mem_cons_of_mem s hm)

/-- A slash-free character list splits into itself. -/
theorem splitSlash_of_no_slash (l : List Char) (h : ¬ '/' ∈ l) :
    splitSlash l = [l] := by
  induction l with
  | nil => rfl
  | cons c rest ih =>
    have hc : ¬ c = '/' := fun hc => h (hc ▸ List.mem_cons_self c rest)
    obtain ⟨s, ss, hsp, heq⟩ := splitSlash_cons_other c rest hc
    rw [heq]
    rw [ih (fun hm => h (List.mem_cons_of_mem c hm))] at hsp
    rw [(List.cons.injEq _ _ _ _).mp hsp |>.1, (List.cons.injEq _ _ _ _).mp hsp |>.2]

/-- Splitting the slash-join of slash-free segments recovers the segments. -/
theorem splitSlash_joinSegsAux (segs : List (List Char)) (hn : ¬ segs = [])
    (hns : ∀ p ∈ segs, ¬ '/' ∈ p) :
    splitSlash (joinSegsAux segs) = segs := by
  induction segs with
  | nil => exact absurd rfl hn
  | cons s rest ih =>
    cases rest with
    | nil =>
      show splitSlash s = [s]
      exact splitSlash_of_no_slash s (hns s (List.mem_singleton.mpr rfl))
    | cons s2 rest2 =>
      show splitSlash (s ++ '/' :: joinSegsAux (s2 :: rest2)) = _
      rw [splitSlash_append,
        splitSlash_of_no_slash s (hns s (List.mem_cons_self _ _)),
        ih (fun hcon => by cases hcon) (fun p hp => hns p (List.mem_cons_of_mem s hp))]
      rfl

theorem normAcc_nil (acc : List (List Char)) : normAcc acc [] = acc := rfl

theorem normAcc_cons (acc : List (List Char)) (s : List Char)
    (rest : List (List Char)) :
    normAcc acc (s :: rest) =
      if s = [] ∨ s = ['.'] then normAcc acc rest
      else if s = ['.', '.'] then normAcc acc.dropLast rest
      else normAcc (acc ++ [s]) rest := rfl

theorem normAcc_append (acc xs ys : List (List Char)) :
    normAcc acc (xs ++ ys) = normAcc (normAcc acc xs) ys := by
  induction xs generalizing acc with
  | nil => rfl
  | cons s rest ih =>
    rw [List.cons_append, normAcc_cons, normAcc_cons]
    split <;> rename_i h1
    · exact ih acc
    · split <;> rename_i h2
      · exact ih acc.dropLast
      · exact ih (acc ++ [s])

/-- A segment is clean when the normalization pass keeps it as-is. -/
def cleanSeg (s : List Char) : Prop :=
  ¬ s = [] ∧ ¬ s = ['.'] ∧ ¬ s = ['.', '.']

theorem normAcc_clean (acc xs : List (List Char)) (h : ∀ p ∈ xs, cleanSeg p) :
    normAcc acc xs = acc ++ xs := by
  induction xs generalizing acc with
  | nil => simp [normAcc_nil]
  | cons s rest ih =>
    obtain ⟨h1, h2, h3⟩ := h s (List.mem_cons_self s rest)
    rw [normAcc_cons]
    rw [if_neg (by tauto), if_neg h3,
      ih (acc ++ [s]) (fun p hp => h p (List.mem_cons_of_mem s hp))]
    simp

/-- Every segment surviving normalization is one of the input segments (and
clean), or came from the initial accumulator. -/
theorem normAcc_mem (acc xs : List (List Char)) :
    ∀ p ∈ normAcc acc xs, p ∈ acc ∨ (p ∈ xs ∧ cleanSeg p) := by
  induction xs generalizing acc with
  | nil =>
    intro p hp
    exact Or.inl hp
  | cons s rest ih =>
    intro p hp
    rw [normAcc_cons] at hp
    split at hp <;> rename_i h1
    · rcases ih acc p hp with h | ⟨hm, hc⟩
      · exact Or.inl h
      · exact Or.inr ⟨List.mem_cons_of_mem s hm, hc⟩
    · split at hp <;> rename_i h2
      · rcases ih acc.dropLast p hp with h | ⟨hm, hc⟩
        · exact Or.inl (List.dropLast_subset _ h)
        · exact Or.inr ⟨List.mem_cons_of_mem s hm, hc⟩
      · rcases ih (acc ++ [s]) p hp with h | ⟨hm, hc⟩
        · rcases List.mem_append.mp h with ha | hs
          · exact Or.inl ha
          · refine Or.inr ⟨(List.mem_singleton.mp hs) ▸ List.mem_cons_self s rest, ?_⟩
            rw [List.mem_singleton.mp hs]
            push_neg at h1
            exact ⟨h1.1, h1.2, h2⟩
        · exact Or.inr ⟨List.mem_cons_of_mem s hm, hc⟩

end Ionify
namespace Ionify

theorem strMk_data (s : String) : (⟨s.data⟩ : String) = s := rfl

theorem pathResolveAbs_data (s : String) :
    (pathResolveAbs s).data = '/' :: joinSegsAux (normAcc [] (splitSlash s.data)) := rfl
/-- The normalization core of the inside-root decode: resolving
`root + "/." + "/" + rel` equals resolving `root + "/" + rel`. -/
theorem resolve_dot_insert (root rel : String) :
    pathResolveAbs (root ++ "/." ++ ("/" ++ rel)) =
      pathResolveAbs (root ++ "/" ++ rel) := by
  unfold pathResolveAbs
  have hs1 : "/.".data = ['/', '.'] := by decide
  have hs2 : "/".data = ['/'] := by decide
  have hdata1 : (root ++ "/." ++ ("/" ++ rel)).data =
      root.data ++ '/' :: ('.' :: '/' :: rel.data) := by
    rw [String.data_append, String.data_append, String.data_append, hs1, hs2]
    simp
  have hdata2 : (root ++ "/" ++ rel).data = root.data ++ '/' :: rel.data := by
    rw [String.data_append, String.data_append, hs2]
    simp
  rw [hdata1, hdata2, splitSlash_append, splitSlash_append]
  have hdot : splitSlash ('.' :: '/' :: rel.data) = ['.'] :: splitSlash rel.data := by
    obtain ⟨s, ss, hsp, heq⟩ := splitSlash_cons_other '.' ('/' :: rel.data) (by decide)
    rw [splitSlash_cons_slash] at hsp
    rw [heq, (List.cons.injEq _ _ _ _).mp hsp |>.1, (List.cons.injEq _ _ _ _).mp hsp |>.2]
  rw [hdot, normAcc_append, normAcc_append, normAcc_cons]
  rw [if_pos (Or.inr rfl)]

/-- Resolving `root ++ "/" ++ rel` when the concatenation is already a fixed
point gives back the concatenation. -/
theorem resolve_concat_fixed (root rel p : String) (hp : pathResolveAbs p = p)
    (hsplit : p.data = root.data ++ '/' :: rel.data) :
    pathResolveAbs (root ++ "/" ++ rel) = p := by
  have hs2 : "/".data = ['/'] := by decide
  have hdata : (root ++ "/" ++ rel).data = p.data := by
    rw [String.data_append, String.data_append, hs2, hsplit]
    simp
  calc pathResolveAbs (root ++ "/" ++ rel) = pathResolveAbs ⟨p.data⟩ := by rw [← hdata]
    _ = p := by rw [strMk_data, hp]

theorem isPrefixOf_append (a b : List Char) : a.isPrefixOf (a ++ b) = true := by
  rw [List.isPrefixOf_iff_prefix]
  exact ⟨b, rfl⟩

/-- Inside-root round trip: for absolute normalized `root` and `p` strictly
inside it whose public path does not collide with the module prefix,
`decode(root, public_path_for(root, p)) = p`. -/
theorem roundtrip_inside (cwd root rel p : String)
    (hroot : pathResolveAbs root = root) (hp : pathResolveAbs p = p)
    (hsplit : p.data = root.data ++ '/' :: rel.data)
    (hnc : jsStartsWith ("/" ++ rel) modulePrefixVal = false) :
    decodePublicPath cwd root (publicPathForFile root p) = some p := by
  have hin : jsStartsWith p (root ++ "/") = true := by
    unfold jsStartsWith
    rw [hsplit]
    have : (root ++ "/").data = root.data ++ ['/'] := by
      rw [String.data_append]
    rw [this, List.isPrefixOf_iff_prefix]
    exact ⟨rel.data, by simp⟩
  have hne : ¬ p = root := by
    intro he
    have := congrArg (fun s => s.data.length) he
    simp only [hsplit, List.length_append, List.length_cons] at this
    omega
  have hrel : relInside root p = rel := by
    unfold relInside
    rw [if_neg hne]
    unfold jsDropStr jsLen
    rw [hsplit]
    have hsw : root.data ++ '/' :: rel.data = (root.data ++ ['/']) ++ rel.data := by simp
    rw [hsw]
    have hlen : root.data.length + 1 = (root.data ++ ['/']).length := by simp
    rw [hlen, List.drop_left, strMk_data]
  have hppf : publicPathForFile root p = "/" ++ rel := by
    unfold publicPathForFile
    dsimp only
    rw [hroot, hp, hin, hrel]
    simp
  rw [hppf]
  unfold decodePublicPath
  dsimp only
  rw [if_neg (by rw [hnc]; simp)]
  rw [hroot]
  have hjoined : pathResolveAbs (root ++ "/." ++ ("/" ++ rel)) = p := by
    rw [resolve_dot_insert]
    exact resolve_concat_fixed root rel p hp hsplit
  rw [hjoined]
  rw [if_neg (by
    intro hcon
    rw [hin] at hcon
    simp at hcon)]

/-- Round trip at `p = root` itself: the public path is `/` and decoding it
returns the root. -/
theorem roundtrip_root (cwd root : String) (hroot : pathResolveAbs root = root) :
    decodePublicPath cwd root (publicPathForFile root root) = some root := by
  have hppf : publicPathForFile root root = "/" := by
    unfold publicPathForFile
    dsimp only
    rw [hroot]
    rw [if_pos (by simp)]
    show ("/" ++ relInside root root) = "/"
    unfold relInside
    rw [if_pos rfl]
    decide
  rw [hppf]
  unfold decodePublicPath
  dsimp only
  rw [if_neg (by rw [show jsStartsWith "/" modulePrefixVal = false from by decide]; simp)]
  rw [hroot]
  have hjoined : pathResolveAbs (root ++ "/." ++ "/") = root := by
    have hsw : (root ++ "/." ++ "/") = root ++ "/." ++ ("/" ++ "") := by simp
    rw [hsw, resolve_dot_insert]
    unfold pathResolveAbs
    have hs2 : "/".data = ['/'] := by decide
    have hdata : (root ++ "/" ++ "").data = root.data ++ '/' :: ([] : List Char) := by
      rw [String.data_append, String.data_append, hs2]
      simp
    rw [hdata, splitSlash_append, normAcc_append, splitSlash_nil]
    rw [show normAcc (normAcc [] (splitSlash root.data)) [[]] =
      normAcc [] (splitSlash root.data) from by
        rw [normAcc_cons, if_pos (Or.inl rfl)]
        exact normAcc_nil _]
    exact hroot
  rw [hjoined]
  rw [if_neg (by intro hcon; exact hcon.2 rfl)]

end Ionify
namespace Ionify

/-! ### Base64url and UTF-8 round trips -/

theorem charSextet_sextetChar : ∀ n < 64, charSextet (sextetChar n) = some n := by
  decide

theorem b64_roundtrip_aux :
    ∀ (fuel : Nat) (bytes : List Nat), bytes.length ≤ fuel →
      (∀ b ∈ bytes, b < 256) →
      b64DecodeSextets ((b64EncodeBytes bytes).filterMap charSextet) = bytes := by
  intro fuel
  induction fuel with
  | zero =>
    intro bytes hlen _
    have : bytes = [] := List.length_eq_zero.mp (by omega)
    subst this
    rfl
  | succ fuel ih =>
    intro bytes hlen hb
    match bytes with
    | [] => rfl
    | [a] =>
      have ha := hb a (List.mem_singleton.mpr rfl)
      show b64DecodeSextets
        ([sextetChar (a / 4), sextetChar (a % 4 * 16)].filterMap charSextet) = [a]
      rw [List.filterMap_cons, charSextet_sextetChar (a / 4) (by omega)]
      rw [List.filterMap_cons, charSextet_sextetChar (a % 4 * 16) (by omega)]
      show [a / 4 * 4 + a % 4 * 16 / 16] = [a]
      have : a / 4 * 4 + a % 4 * 16 / 16 = a := by omega
      rw [this]
    | [a, b] =>
      have ha := hb a (by simp)
      have hb2 := hb b (by simp)
      show b64DecodeSextets
        ([sextetChar (a / 4), sextetChar (a % 4 * 16 + b / 16),
          sextetChar (b % 16 * 4)].filterMap charSextet) = [a, b]
      rw [List.filterMap_cons, charSextet_sextetChar (a / 4) (by omega)]
      rw [List.filterMap_cons, charSextet_sextetChar (a % 4 * 16 + b / 16) (by omega)]
      rw [List.filterMap_cons, charSextet_sextetChar (b % 16 * 4) (by omega)]
      show [a / 4 * 4 + (a % 4 * 16 + b / 16) / 16,
        (a % 4 * 16 + b / 16) % 16 * 16 + b % 16 * 4 / 4] = [a, b]
      have h1 : a / 4 * 4 + (a % 4 * 16 + b / 16) / 16 = a := by omega
      have h2 : (a % 4 * 16 + b / 16) % 16 * 16 + b % 16 * 4 / 4 = b := by omega
      rw [h1, h2]
    | a :: b :: c :: rest =>
      have ha := hb a (by simp)
      have hb2 := hb b (by simp)
      have hc := hb c (by simp)
      show b64DecodeSextets
        ((sextetChar (a / 4) :: sextetChar (a % 4 * 16 + b / 16) ::
          sextetChar (b % 16 * 4 + c / 64) :: sextetChar (c % 64) ::
          b64EncodeBytes rest).filterMap charSextet) = a :: b :: c :: rest
      rw [List.filterMap_cons, charSextet_sextetChar (a / 4) (by omega)]
      rw [List.filterMap_cons, charSextet_sextetChar (a % 4 * 16 + b / 16) (by omega)]
      rw [List.filterMap_cons, charSextet_sextetChar (b % 16 * 4 + c / 64) (by omega)]
      rw [List.filterMap_cons, charSextet_sextetChar (c % 64) (by omega)]
      show (a / 4 * 4 + (a % 4 * 16 + b / 16) / 16) ::
          ((a % 4 * 16 + b / 16) % 16 * 16 + (b % 16 * 4 + c / 64) / 4) ::
          ((b % 16 * 4 + c / 64) % 4 * 64 + c % 64) ::
          b64DecodeSextets ((b64EncodeBytes rest).filterMap charSextet) =
        a :: b :: c :: rest
      have h1 : a / 4 * 4 + (a % 4 * 16 + b / 16) / 16 = a := by omega
      have h2 : (a % 4 * 16 + b / 16) % 16 * 16 + (b % 16 * 4 + c / 64) / 4 = b := by omega
      have h3 : (b % 16 * 4 + c / 64) % 4 * 64 + c % 64 = c := by omega
      rw [h1, h2, h3, ih rest (by simp at hlen; omega)
        (fun x hx => hb x (by simp [hx]))]

theorem b64_roundtrip (bytes : List Nat) (hb : ∀ b ∈ bytes, b < 256) :
    base64urlDecode (base64urlEncode bytes) = bytes := by
  unfold base64urlDecode base64urlEncode
  rw [strMk_data]
  exact b64_roundtrip_aux bytes.length bytes (Nat.le_refl _) hb

theorem char_toNat_lt (c : Char) : c.toNat < 1114112 := by
  show c.val.toNat < 1114112
  rcases c.valid with h | ⟨_, h⟩
  · have : c.val.toNat < 55296 := h
    omega
  · exact h

theorem utf8EncodeChar_lt (c : Char) : ∀ b ∈ utf8EncodeChar c, b < 256 := by
  have hc := char_toNat_lt c
  unfold utf8EncodeChar
  dsimp only
  split_ifs with h1 h2 h3 <;> intro b hb <;> simp at hb <;> omega

theorem utf8Bytes_lt (s : String) : ∀ b ∈ utf8Bytes s, b < 256 := by
  intro b hb
  unfold utf8Bytes at hb
  rw [List.mem_flatMap] at hb
  obtain ⟨c, _, hc⟩ := hb
  exact utf8EncodeChar_lt c b hc

theorem utf8DecodeBytes_nil : utf8DecodeBytes [] = some [] := rfl

theorem utf8DecodeBytes_cons (b : Nat) (rest : List Nat) :
    utf8DecodeBytes (b :: rest) =
      if b < 128 then
        (utf8DecodeBytes rest).map (fun cs => Char.ofNat b :: cs)
      else if 192 ≤ b ∧ b < 224 then
        match rest with
        | b2 :: rest2 =>
          if 128 ≤ b2 ∧ b2 < 192 then
            (utf8DecodeBytes rest2).map
              (fun cs => Char.ofNat ((b - 192) * 64 + (b2 - 128)) :: cs)
          else none
        | [] => none
      else if 224 ≤ b ∧ b < 240 then
        match rest with
        | b2 :: b3 :: rest3 =>
          if (128 ≤ b2 ∧ b2 < 192) ∧ (128 ≤ b3 ∧ b3 < 192) then
            (utf8DecodeBytes rest3).map
              (fun cs => Char.ofNat ((b - 224) * 4096 + (b2 - 128) * 64 + (b3 - 128)) :: cs)
          else none
        | _ => none
      else if 240 ≤ b ∧ b < 248 then
        match rest with
        | b2 :: b3 :: b4 :: rest4 =>
          if (128 ≤ b2 ∧ b2 < 192) ∧ (128 ≤ b3 ∧ b3 < 192) ∧ (128 ≤ b4 ∧ b4 < 192) then
            (utf8DecodeBytes rest4).map
              (fun cs =>
                Char.ofNat
                  ((b - 240) * 262144 + (b2 - 128) * 4096 + (b3 - 128) * 64 + (b4 - 128)) :: cs)
          else none
        | _ => none
      else none := by
  match rest with
  | [] => rfl
  | [b2] => rfl
  | [b2, b3] => rfl
  | b2 :: b3 :: b4 :: rest4 => rfl

theorem utf8_roundtrip_chars (cs : List Char) :
    utf8DecodeBytes (cs.flatMap utf8EncodeChar) = some cs := by
  induction cs with
  | nil => rfl
  | cons c rest ih =>
    rw [List.flatMap_cons]
    have hc := char_toNat_lt c
    by_cases h1 : c.toNat < 128
    · have henc : utf8EncodeChar c = [c.toNat] := by
        unfold utf8EncodeChar
        rw [if_pos h1]
      rw [henc]
      show utf8DecodeBytes (c.toNat :: List.flatMap rest utf8EncodeChar) = _
      rw [utf8DecodeBytes_cons, if_pos h1, ih]
      show some (Char.ofNat c.toNat :: rest) = some (c :: rest)
      rw [Char.ofNat_toNat]
    · by_cases h2 : c.toNat < 2048
      · have henc : utf8EncodeChar c = [192 + c.toNat / 64, 128 + c.toNat % 64] := by
          unfold utf8EncodeChar
          rw [if_neg h1, if_pos h2]
        rw [henc]
        show utf8DecodeBytes ((192 + c.toNat / 64) ::
          (128 + c.toNat % 64) :: List.flatMap rest utf8EncodeChar) = _
        rw [utf8DecodeBytes_cons, if_neg (by omega), if_pos (by omega)]
        dsimp only
        rw [if_pos (by omega), ih]
        have he : (192 + c.toNat / 64 - 192) * 64 + (128 + c.toNat % 64 - 128) =
            c.toNat := by
          omega
        show some (Char.ofNat ((192 + c.toNat / 64 - 192) * 64 +
          (128 + c.toNat % 64 - 128)) :: rest) = some (c :: rest)
        rw [he, Char.ofNat_toNat]
      · by_cases h3 : c.toNat < 65536
        · have henc : utf8EncodeChar c =
              [224 + c.toNat / 4096, 128 + c.toNat / 64 % 64, 128 + c.toNat % 64] := by
            unfold utf8EncodeChar
            rw [if_neg h1, if_neg h2, if_pos h3]
          rw [henc]
          show utf8DecodeBytes ((224 + c.toNat / 4096) :: (128 + c.toNat / 64 % 64) ::
            (128 + c.toNat % 64) :: List.flatMap rest utf8EncodeChar) = _
          rw [utf8DecodeBytes_cons, if_neg (by omega), if_neg (by omega),
            if_pos (by omega)]
          dsimp only
          rw [if_pos (by refine ⟨⟨?_, ?_⟩, ?_, ?_⟩ <;> omega), ih]
          have he : (224 + c.toNat / 4096 - 224) * 4096 +
              (128 + c.toNat / 64 % 64 - 128) * 64 +
              (128 + c.toNat % 64 - 128) = c.toNat := by
            omega
          show some (Char.ofNat ((224 + c.toNat / 4096 - 224) * 4096 +
            (128 + c.toNat / 64 % 64 - 128) * 64 +
            (128 + c.toNat % 64 - 128)) :: rest) = some (c :: rest)
          rw [he, Char.ofNat_toNat]
        · have henc : utf8EncodeChar c =
              [240 + c.toNat / 262144, 128 + c.toNat / 4096 % 64,
               128 + c.toNat / 64 % 64, 128 + c.toNat % 64] := by
            unfold utf8EncodeChar
            rw [if_neg h1, if_neg h2, if_neg h3]
          rw [henc]
          show utf8DecodeBytes ((240 + c.toNat / 262144) :: (128 + c.toNat / 4096 % 64) ::
            (128 + c.toNat / 64 % 64) :: (128 + c.toNat % 64) ::
            List.flatMap rest utf8EncodeChar) = _
          rw [utf8DecodeBytes_cons, if_neg (by omega), if_neg (by omega),
            if_neg (by omega), if_pos (by omega)]
          dsimp only
          rw [if_pos (by refine ⟨⟨?_, ?_⟩, ⟨?_, ?_⟩, ?_, ?_⟩ <;> omega), ih]
          have he : (240 + c.toNat / 262144 - 240) * 262144 +
              (128 + c.toNat / 4096 % 64 - 128) * 4096 +
              (128 + c.toNat / 64 % 64 - 128) * 64 + (128 + c.toNat % 64 - 128) =
              c.toNat := by
            omega
          show some (Char.ofNat ((240 + c.toNat / 262144 - 240) * 262144 +
            (128 + c.toNat / 4096 % 64 - 128) * 4096 +
            (128 + c.toNat / 64 % 64 - 128) * 64 + (128 + c.toNat % 64 - 128)) :: rest) =
            some (c :: rest)
          rw [he, Char.ofNat_toNat]

theorem utf8_roundtrip (s : String) : utf8DecodeStr (utf8Bytes s) = some s := by
  unfold utf8DecodeStr utf8Bytes
  rw [utf8_roundtrip_chars s.data]
  rfl

end Ionify
namespace Ionify

/-- Outside-root round trip via the module-prefix base64url encoding. -/
theorem roundtrip_outside (cwd root p : String) (hp : pathResolveAbs p = p)
    (h1 : jsStartsWith p (pathResolveAbs root ++ "/") = false)
    (h2 : ¬ p = pathResolveAbs root) :
    decodePublicPath cwd root (publicPathForFile root p) = some p := by
  have hppf : publicPathForFile root p =
      modulePrefixVal ++ base64urlEncode (utf8Bytes p) := by
    unfold publicPathForFile
    dsimp only
    rw [hp, h1]
    rw [if_neg (by simp [h2])]
  rw [hppf]
  unfold decodePublicPath
  dsimp only
  have hpre : jsStartsWith (modulePrefixVal ++ base64urlEncode (utf8Bytes p))
      modulePrefixVal = true := by
    unfold jsStartsWith
    rw [String.data_append]
    exact isPrefixOf_append _ _
  rw [if_pos hpre]
  have hdrop : jsDropStr (modulePrefixVal ++ base64urlEncode (utf8Bytes p))
      (jsLen modulePrefixVal) = base64urlEncode (utf8Bytes p) := by
    unfold jsDropStr jsLen
    rw [String.data_append, List.drop_left, strMk_data]
  rw [hdrop, b64_roundtrip _ (utf8Bytes_lt p), utf8_roundtrip p]
  show some (pathResolve1 cwd p) = some p
  have hres : pathResolve1 cwd p = p := by
    unfold pathResolve1
    have habs : jsStartsWith p "/" = true := by
      unfold jsStartsWith
      have : p.data = '/' :: joinSegsAux (normAcc [] (splitSlash p.data)) := by
        conv_lhs => rw [← hp]
        exact pathResolveAbs_data p
      rw [this]
      rw [show ("/" : String).data = ['/'] from by decide]
      rw [show ('/' :: joinSegsAux (normAcc [] (splitSlash p.data))) =
        ['/'] ++ joinSegsAux (normAcc [] (splitSlash p.data)) from rfl]
      exact isPrefixOf_append _ _
    rw [if_pos habs, hp]
  rw [hres]

/-- C6 (counterexample): for the in-root file `/r/__ionify__/modules/x` the
public path collides with the module prefix, so decode misreads it as a
module-encoded url: with `process.cwd() = /w` it returns `/w`, not the
original path. -/
theorem C6_counterexample :
    decodePublicPath "/w" "/r"
        (publicPathForFile "/r" "/r/__ionify__/modules/x") = some "/w" ∧
      ¬ ("/w" : String) = "/r/__ionify__/modules/x" := by
  refine ⟨by decide, by decide⟩

/-- C6 (amended): the decode/encode round trip
`decode(root, public_path_for(root, p)) = p` holds for every absolute
normalized `p` and `root` in three regimes: `p` strictly inside `root`
provided `p`'s public path does not itself start with the module prefix
(i.e. `p` is not under `root + "/__ionify__/modules/"`); `p` equal to
`root`; and `p` outside `root` (module-prefix encoding).  In the excluded
collision case decode misinterprets the url (see the counterexample). -/
theorem C6_roundtrip_cases (cwd root rel p : String) :
    (pathResolveAbs root = root → pathResolveAbs p = p →
      p.data = root.data ++ '/' :: rel.data →
      jsStartsWith ("/" ++ rel) modulePrefixVal = false →
      decodePublicPath cwd root (publicPathForFile root p) = some p) ∧
      (pathResolveAbs root = root →
        decodePublicPath cwd root (publicPathForFile root root) = some root) ∧
      (pathResolveAbs p = p →
        jsStartsWith p (pathResolveAbs root ++ "/") = false →
        ¬ p = pathResolveAbs root →
        decodePublicPath cwd root (publicPathForFile root p) = some p) :=
  ⟨fun hroot hp hsplit hnc => roundtrip_inside cwd root rel p hroot hp hsplit hnc,
   fun hroot => roundtrip_root cwd root hroot,
   fun hp h1 h2 => roundtrip_outside cwd root p hp h1 h2⟩

/-- Witness for the amended C6 theorem: concrete round trips for an inside
file, the root itself, and an outside file. -/
theorem C6_roundtrip_cases_witness :
    decodePublicPath "/w" "/r" (publicPathForFile "/r" "/r/a.ts") = some "/r/a.ts" ∧
      decodePublicPath "/w" "/r" (publicPathForFile "/r" "/r") = some "/r" ∧
      decodePublicPath "/w" "/r" (publicPathForFile "/r" "/x.ts") = some "/x.ts" :=
  ⟨(C6_roundtrip_cases "/w" "/r" "a.ts" "/r/a.ts").1 (by decide) (by decide)
      (by decide) (by decide),
   (C6_roundtrip_cases "/w" "/r" "" "/r").2.1 (by decide),
   (C6_roundtrip_cases "/w" "/r" "" "/x.ts").2.2 (by decide) (by decide) (by decide)⟩

/-- C7: the path-traversal guard of `decodePublicPath`.  For every url that
does not carry the module prefix: if the resolution of the url against the
root normalizes strictly outside the root, decode returns null; and whenever
decode returns a path at all, that path is the root or strictly inside it. -/
theorem C7_decode_traversal_guard (cwd root url : String)
    (hnp : jsStartsWith url modulePrefixVal = false) :
    (¬ jsStartsWith (pathResolveAbs (pathResolveAbs root ++ "/." ++ url))
          (pathResolveAbs root ++ "/") = true →
      ¬ pathResolveAbs (pathResolveAbs root ++ "/." ++ url) = pathResolveAbs root →
      decodePublicPath cwd root url = none) ∧
      (∀ r, decodePublicPath cwd root url = some r →
        r = pathResolveAbs root ∨
          jsStartsWith r (pathResolveAbs root ++ "/") = true) := by
  constructor
  · intro hesc hne
    unfold decodePublicPath
    dsimp only
    rw [if_neg (by rw [hnp]; simp)]
    rw [if_pos ⟨hesc, hne⟩]
  · intro r hr
    unfold decodePublicPath at hr
    dsimp only at hr
    rw [if_neg (by rw [hnp]; simp)] at hr
    by_cases hguard : ¬ jsStartsWith (pathResolveAbs (pathResolveAbs root ++ "/." ++ url))
        (pathResolveAbs root ++ "/") = true ∧
        ¬ pathResolveAbs (pathResolveAbs root ++ "/." ++ url) = pathResolveAbs root
    · rw [if_pos hguard] at hr
      cases hr
    · rw [if_neg hguard] at hr
      have hjr : r = pathResolveAbs (pathResolveAbs root ++ "/." ++ url) :=
        (Option.some_inj.mp hr).symm
      rw [not_and_or, not_not, not_not] at hguard
      rcases hguard with h | h
      · exact Or.inr (hjr ▸ h)
      · exact Or.inl (hjr ▸ h)

/-- Witness for C7 at a concrete traversal attempt `/../etc/passwd` against
root `/r`. -/
theorem C7_decode_traversal_guard_witness :
    decodePublicPath "/w" "/r" "/../etc/passwd" = none :=
  (C7_decode_traversal_guard "/w" "/r" "/../etc/passwd" (by decide)).1
    (by decide) (by decide)

end Ionify
